import Mathlib

/-!
# Verification of the NeuroContextOS core

Shallow embedding of the core components of the repository:

* the hardware-tiered dense kernels (`spike_dense_forward` scalar fallback,
  `spike_dense_neon`, `spike_dense_sme2` and their preprocessor dispatch),
  from `modules/cortexn-snn/src/main/cpp/lif_layer.cpp` and
  `modules/cortexn-snn/src/main/cpp/kernels/`;
* the LIF neuron layer (`LIFLayer`), from
  `modules/cortexn-snn/src/main/cpp/cortexn_snn.cpp`;
* the spike encoders (`RateEncoder`, `LatencyEncoder`,
  `TemporalContrastEncoder`, `SpikeEncoder`), from
  `modules/cortexn-snn/src/main/cpp/include/spike_encoder.h` and
  `spike_encoder.cpp`;
* the SPSC ring buffer (`RingBuffer`), from
  `modules/audiogen-lite/src/main/cpp/ring_buffer.cpp`.

C `float` arithmetic is modelled by exact rational arithmetic (`ℚ`);
C buffers (raw pointers) are modelled as total functions `Nat → ℚ`,
and loops writing into them as folds over `List.range`.
-/

namespace NeuroContextOS

/-- Pointwise update of a modelled C buffer: `buf[i] = x`. -/
def updAt (f : Nat → ℚ) (i : Nat) (x : ℚ) : Nat → ℚ :=
  fun j => if j = i then x else f j

theorem updAt_same (f : Nat → ℚ) (i : Nat) (x : ℚ) : updAt f i x i = x := by
  simp [updAt]

theorem updAt_other (f : Nat → ℚ) (i j : Nat) (x : ℚ) (h : j ≠ i) :
    updAt f i x j = f j := by
  simp [updAt, h]

/-- A C accumulation loop `for (i = 0; i < n; ++i) acc += f(i);`
starting from `acc`. -/
def loopAcc (f : Nat → ℚ) (n : Nat) (acc : ℚ) : ℚ :=
  (List.range n).foldl (fun a i => a + f i) acc

theorem foldl_add_eq_sum (f : Nat → ℚ) (n : Nat) (acc : ℚ) :
    (List.range n).foldl (fun a i => a + f i) acc =
      acc + ∑ i ∈ Finset.range n, f i := by
  induction n with
  | zero => simp
  | succ m ih =>
      simp only [List.range_succ, List.foldl_append, List.foldl_cons,
        List.foldl_nil] at *
      rw [ih, Finset.sum_range_succ, add_assoc]

theorem loopAcc_eq_sum (f : Nat → ℚ) (n : Nat) (acc : ℚ) :
    loopAcc f n acc = acc + ∑ i ∈ Finset.range n, f i :=
  foldl_add_eq_sum f n acc

/-- Splitting a range sum at `a`. -/
theorem sum_range_split (f : Nat → ℚ) (a b : Nat) :
    ∑ i ∈ Finset.range (a + b), f i =
      (∑ i ∈ Finset.range a, f i) + ∑ k ∈ Finset.range b, f (a + k) := by
  induction b with
  | zero => simp
  | succ m ih =>
      rw [← Nat.add_assoc, Finset.sum_range_succ, ih, Finset.sum_range_succ,
        add_assoc]

/-! ## Kernel tier: scalar baseline (`lif_layer.cpp`, scalar fallback) -/

/-- The scalar dense kernel, entry `(b, o)` of the output buffer:
the fallback loop of `spike_dense_forward` in `lif_layer.cpp`:
`sum = bias[o]; for i: sum += weights[o*input_size+i] * spikes[b*input_size+i]`. -/
def spike_dense_scalar (spikes weights bias : Nat → ℚ)
    (input_size b o : Nat) : ℚ :=
  loopAcc (fun i => weights (o * input_size + i) * spikes (b * input_size + i))
    input_size (bias o)

/-! ## Kernel tier: SIMD-128 (`kernels/spike_dense_neon.cpp`, `HAVE_NEON` branch) -/

/-- One SIMD accumulator lane `j` (`0 ≤ j < 4`): the values accumulated into
lane `j` of `sum_vec` by the `vmlaq_f32` loop, group `g` contributing
`f (4*g + j)`. -/
def neonLane (f : Nat → ℚ) (q j : Nat) : ℚ :=
  (List.range q).foldl (fun a g => a + f (4 * g + j)) 0

/-- The NEON dense kernel, entry `(b, o)`: 4-wide multiply-accumulate over
`input_size / 4` full groups, horizontal reduction
`(lane0 + lane2) + (lane1 + lane3)` (from `vadd_f32` of the low/high halves
followed by `vpadd_f32`), added to `bias[o]`, then a scalar tail loop. -/
def spike_dense_neon_simd (spikes weights bias : Nat → ℚ)
    (input_size b o : Nat) : ℚ :=
  let f := fun i => weights (o * input_size + i) * spikes (b * input_size + i)
  let q := input_size / 4
  let horiz := (neonLane f q 0 + neonLane f q 2) + (neonLane f q 1 + neonLane f q 3)
  (List.range (input_size - 4 * q)).foldl (fun a k => a + f (4 * q + k))
    (bias o + horiz)

theorem neonLane_eq_sum (f : Nat → ℚ) (q j : Nat) :
    neonLane f q j = ∑ g ∈ Finset.range q, f (4 * g + j) := by
  have h := loopAcc_eq_sum (fun g => f (4 * g + j)) q 0
  simpa [loopAcc, neonLane] using h

/-- Sum over a range of length `4 * q` regrouped into groups of four. -/
theorem sum_range_four_groups (f : Nat → ℚ) (q : Nat) :
    ∑ i ∈ Finset.range (4 * q), f i =
      ∑ g ∈ Finset.range q, (f (4 * g) + f (4 * g + 1) + f (4 * g + 2) + f (4 * g + 3)) := by
  induction q with
  | zero => simp
  | succ m ih =>
      have h4 : 4 * (m + 1) = 4 * m + 4 := by ring
      rw [h4, sum_range_split f (4 * m) 4, ih, Finset.sum_range_succ,
        Finset.sum_range_succ, Finset.sum_range_succ, Finset.sum_range_succ,
        Finset.sum_range_zero, Finset.sum_range_succ]
      simp only [Nat.add_zero, zero_add]

/-- Over exact arithmetic, the SIMD-128 kernel computes exactly the scalar
dense result. -/
theorem neon_simd_eq_scalar (spikes weights bias : Nat → ℚ)
    (input_size b o : Nat) :
    spike_dense_neon_simd spikes weights bias input_size b o =
      spike_dense_scalar spikes weights bias input_size b o := by
  have key : ∀ (f : Nat → ℚ) (n : Nat) (c : ℚ),
      (List.range (n - 4 * (n / 4))).foldl (fun a k => a + f (4 * (n / 4) + k))
        (c + ((neonLane f (n / 4) 0 + neonLane f (n / 4) 2) +
              (neonLane f (n / 4) 1 + neonLane f (n / 4) 3))) =
      (List.range n).foldl (fun a i => a + f i) c := by
    intro f n c
    rw [foldl_add_eq_sum, foldl_add_eq_sum]
    have h1 : 4 * (n / 4) ≤ n := Nat.mul_div_le n 4
    have hsplit : n = 4 * (n / 4) + (n - 4 * (n / 4)) := by omega
    conv_rhs => rw [hsplit]
    rw [sum_range_split f (4 * (n / 4)) (n - 4 * (n / 4)), sum_range_four_groups]
    have hgroups : ∑ g ∈ Finset.range (n / 4),
        (f (4 * g) + f (4 * g + 1) + f (4 * g + 2) + f (4 * g + 3)) =
        (∑ g ∈ Finset.range (n / 4), f (4 * g)) +
        (∑ g ∈ Finset.range (n / 4), f (4 * g + 1)) +
        (∑ g ∈ Finset.range (n / 4), f (4 * g + 2)) +
        (∑ g ∈ Finset.range (n / 4), f (4 * g + 3)) := by
      rw [Finset.sum_add_distrib, Finset.sum_add_distrib, Finset.sum_add_distrib]
    rw [hgroups]
    simp only [neonLane_eq_sum]
    have hzero : ∀ g : Nat, 4 * g + 0 = 4 * g := fun g => Nat.add_zero _
    simp only [hzero]
    ring
  simpa only [spike_dense_neon_simd, spike_dense_scalar, loopAcc] using
    key (fun i => weights (o * input_size + i) * spikes (b * input_size + i))
      input_size (bias o)

/-! ## Kernel dispatch across build configurations

The three kernel entry points call each other through preprocessor
dispatch:

* `spike_dense_forward` (`lif_layer.cpp`): `#ifdef HAVE_SME2` calls
  `spike_dense_sme2`; `#elif defined(HAVE_NEON)` calls `spike_dense_neon`;
  otherwise runs the scalar loop;
* `spike_dense_neon` (`spike_dense_neon.cpp`): with `HAVE_NEON` runs the
  SIMD body, otherwise calls `spike_dense_forward`;
* `spike_dense_sme2` (`spike_dense_sme2.cpp`): in both the `HAVE_SME2`
  branch (the documented placeholder) and the `#else` branch it calls
  `spike_dense_neon` when `HAVE_NEON` is defined and `spike_dense_forward`
  otherwise.

The macros are modelled as two booleans `s` (`HAVE_SME2`) and `n`
(`HAVE_NEON`); the mutual calls are modelled with an explicit call-depth
budget `fuel`, `none` meaning the call chain never reaches a computation
(unbounded mutual recursion / stack overflow in the C code). -/

mutual

def spike_dense_forward_fuel : Nat → Bool → Bool →
    (Nat → ℚ) → (Nat → ℚ) → (Nat → ℚ) → Nat → Nat → Nat → Option ℚ
  | 0, _, _, _, _, _, _, _, _ => none
  | fuel + 1, s, n, sp, w, bi, ins, b, o =>
      if s then spike_dense_sme2_fuel fuel s n sp w bi ins b o
      else if n then spike_dense_neon_fuel fuel s n sp w bi ins b o
      else some (spike_dense_scalar sp w bi ins b o)

def spike_dense_neon_fuel : Nat → Bool → Bool →
    (Nat → ℚ) → (Nat → ℚ) → (Nat → ℚ) → Nat → Nat → Nat → Option ℚ
  | 0, _, _, _, _, _, _, _, _ => none
  | fuel + 1, s, n, sp, w, bi, ins, b, o =>
      if n then some (spike_dense_neon_simd sp w bi ins b o)
      else spike_dense_forward_fuel fuel s n sp w bi ins b o

def spike_dense_sme2_fuel : Nat → Bool → Bool →
    (Nat → ℚ) → (Nat → ℚ) → (Nat → ℚ) → Nat → Nat → Nat → Option ℚ
  | 0, _, _, _, _, _, _, _, _ => none
  | fuel + 1, s, n, sp, w, bi, ins, b, o =>
      if n then spike_dense_neon_fuel fuel s n sp w bi ins b o
      else spike_dense_forward_fuel fuel s n sp w bi ins b o

end

/-- In the build with `HAVE_SME2` defined and `HAVE_NEON` undefined,
`spike_dense_sme2` and `spike_dense_forward` call each other with no base
case: no call-depth budget ever suffices. -/
theorem sme2_forward_mutual_divergence (sp w bi : Nat → ℚ) (ins b o : Nat) :
    ∀ fuel : Nat,
      spike_dense_sme2_fuel fuel true false sp w bi ins b o = none ∧
      spike_dense_forward_fuel fuel true false sp w bi ins b o = none := by
  intro fuel
  induction fuel with
  | zero =>
      exact ⟨by simp [spike_dense_sme2_fuel], by simp [spike_dense_forward_fuel]⟩
  | succ m ih =>
      refine ⟨?_, ?_⟩
      · simpa [spike_dense_sme2_fuel] using ih.2
      · simpa [spike_dense_forward_fuel] using ih.1

/-- C7: for every `(weights, bias, spikes)` input and every shape, the scalar
kernel `spike_dense_forward` and the SIMD-128 kernel `spike_dense_neon`
compute the same dense linear result
`bias[o] + Σᵢ weights[o*input_size+i] * spikes[b*input_size+i]`; over the
exact arithmetic of this embedding (where summation order is immaterial)
they are exactly equal, hence a fortiori within relative tolerance `1e-4`. -/
theorem claim_C7_kernel_tier_equivalence (spikes weights bias : Nat → ℚ)
    (input_size b o : Nat) :
    spike_dense_neon_simd spikes weights bias input_size b o =
      spike_dense_scalar spikes weights bias input_size b o ∧
    spike_dense_scalar spikes weights bias input_size b o =
      bias o + ∑ i ∈ Finset.range input_size,
        weights (o * input_size + i) * spikes (b * input_size + i) :=
  ⟨neon_simd_eq_scalar spikes weights bias input_size b o,
   loopAcc_eq_sum _ input_size (bias o)⟩

/-- C8: with `HAVE_SME2` defined and `HAVE_NEON` undefined, `spike_dense_sme2`
never returns any output at all (it recurses forever through
`spike_dense_forward`), contradicting the required transparent delegation to
the scalar kernel; in the three other build configurations it does return
exactly the next tier down (the NEON SIMD result when `HAVE_NEON` is defined,
the scalar result when neither macro is defined). -/
theorem claim_C8_sme2_fallback (sp w bi : Nat → ℚ) (ins b o : Nat) :
    (∀ fuel, spike_dense_sme2_fuel fuel true false sp w bi ins b o = none) ∧
    (∀ k, spike_dense_sme2_fuel (k + 2) true true sp w bi ins b o =
        some (spike_dense_neon_simd sp w bi ins b o)) ∧
    (∀ k, spike_dense_sme2_fuel (k + 2) false true sp w bi ins b o =
        some (spike_dense_neon_simd sp w bi ins b o)) ∧
    (∀ k, spike_dense_sme2_fuel (k + 2) false false sp w bi ins b o =
        some (spike_dense_scalar sp w bi ins b o)) := by
  refine ⟨fun fuel => (sme2_forward_mutual_divergence sp w bi ins b o fuel).1,
    fun k => ?_, fun k => ?_, fun k => ?_⟩
  · simp [spike_dense_sme2_fuel, spike_dense_neon_fuel]
  · simp [spike_dense_sme2_fuel, spike_dense_neon_fuel]
  · simp [spike_dense_sme2_fuel, spike_dense_forward_fuel]

/-! ## LIFLayer (`cortexn_snn.cpp`)

`float` members are modelled as `ℚ`; the `std::vector<float>` members
(`weights_`, `bias_`, `membrane_potential_`, `synaptic_current_`) as total
functions `Nat → ℚ` (the C++ code indexes them only below the layer sizes).
The decay factors `beta_mem_ = exp(-dt/tau_mem)` and
`beta_syn_ = exp(-dt/tau_syn)` are transcendental; they are carried as
fields, exactly as the C++ class stores the precomputed `float` values. -/

structure LIFParams where
  tau_mem : ℚ
  tau_syn : ℚ
  v_thresh : ℚ
  v_reset : ℚ
  v_rest : ℚ
  dt : ℚ
deriving DecidableEq

structure LIFLayer where
  input_size : Nat
  output_size : Nat
  params : LIFParams
  weights : Nat → ℚ
  bias : Nat → ℚ
  membrane_potential : Nat → ℚ
  synaptic_current : Nat → ℚ
  beta_mem : ℚ
  beta_syn : ℚ

/-- The `LIFLayer` constructor: zero weights and bias, membrane potential at
`v_rest`, synaptic current at `0`; the decay factors (computed once by the
constructor with `std::exp`) are passed in as values. -/
def LIFLayer.create (input_size output_size : Nat) (params : LIFParams)
    (beta_mem beta_syn : ℚ) : LIFLayer where
  input_size := input_size
  output_size := output_size
  params := params
  weights := fun _ => 0
  bias := fun _ => 0
  membrane_potential := fun _ => params.v_rest
  synaptic_current := fun _ => 0
  beta_mem := beta_mem
  beta_syn := beta_syn

/-- `LIFLayer::reset()`: fill `membrane_potential_` with `v_rest` and
`synaptic_current_` with `0`. -/
def LIFLayer.reset (L : LIFLayer) : LIFLayer :=
  { L with
    membrane_potential := fun _ => L.params.v_rest
    synaptic_current := fun _ => 0 }

/-- The body of the `update_neurons` loop at index `i`, acting on the layer
state together with the caller's `output_spikes` buffer. -/
def lifNeuronStep (syn_input : Nat → ℚ) (st : LIFLayer × (Nat → ℚ))
    (i : Nat) : LIFLayer × (Nat → ℚ) :=
  let L := st.1
  let ic := L.beta_syn * L.synaptic_current i + syn_input i
  let v := L.beta_mem * L.membrane_potential i + ic
  if L.params.v_thresh ≤ v then
    ({ L with
        synaptic_current := updAt L.synaptic_current i ic
        membrane_potential := updAt L.membrane_potential i L.params.v_reset },
     updAt st.2 i 1)
  else
    ({ L with
        synaptic_current := updAt L.synaptic_current i ic
        membrane_potential := updAt L.membrane_potential i v },
     updAt st.2 i 0)

/-- `LIFLayer::update_neurons`: the single pass `for (i = 0; i < output_size_; ++i)`. -/
def LIFLayer.update_neurons (L : LIFLayer) (syn_input out : Nat → ℚ) :
    LIFLayer × (Nat → ℚ) :=
  (List.range L.output_size).foldl (lifNeuronStep syn_input) (L, out)

/-- `LIFLayer::compute_synaptic_input` / `forward`: synaptic input
`W · input_spikes + b` through the dense kernel at batch 1, then the neuron
update writing into the caller's `output_spikes` buffer. -/
def LIFLayer.forward (L : LIFLayer) (input_spikes out : Nat → ℚ) :
    LIFLayer × (Nat → ℚ) :=
  let syn_input := fun o => spike_dense_scalar input_spikes L.weights L.bias L.input_size 0 o
  L.update_neurons syn_input out

/-- The synaptic current of neuron `i` after one update with input `J`. -/
def lifNewCurrent (L : LIFLayer) (J : Nat → ℚ) (i : Nat) : ℚ :=
  L.beta_syn * L.synaptic_current i + J i

/-- The membrane potential of neuron `i` after decay and integration,
before the threshold test. -/
def lifPotentialPre (L : LIFLayer) (J : Nat → ℚ) (i : Nat) : ℚ :=
  L.beta_mem * L.membrane_potential i + lifNewCurrent L J i

/-- The membrane potential of neuron `i` after the threshold test. -/
def lifNewPotential (L : LIFLayer) (J : Nat → ℚ) (i : Nat) : ℚ :=
  if L.params.v_thresh ≤ lifPotentialPre L J i then L.params.v_reset
  else lifPotentialPre L J i

/-- The spike emitted by neuron `i`. -/
def lifSpike (L : LIFLayer) (J : Nat → ℚ) (i : Nat) : ℚ :=
  if L.params.v_thresh ≤ lifPotentialPre L J i then 1 else 0

/-- The non-state fields of the layer (sizes, parameters, decay factors,
weights, bias) agree. -/
def sameShape (A B : LIFLayer) : Prop :=
  A.input_size = B.input_size ∧ A.output_size = B.output_size ∧
  A.params = B.params ∧ A.beta_mem = B.beta_mem ∧ A.beta_syn = B.beta_syn ∧
  A.weights = B.weights ∧ A.bias = B.bias

theorem lifNeuronStep_shape (J : Nat → ℚ) (st : LIFLayer × (Nat → ℚ))
    (i : Nat) : sameShape (lifNeuronStep J st i).1 st.1 := by
  by_cases h : st.1.params.v_thresh ≤
      st.1.beta_mem * st.1.membrane_potential i +
        (st.1.beta_syn * st.1.synaptic_current i + J i)
  · simp [lifNeuronStep, sameShape, h]
  · simp [lifNeuronStep, sameShape, h]

theorem lifNeuronStep_frame (J : Nat → ℚ) (st : LIFLayer × (Nat → ℚ))
    (i j : Nat) (h : j ≠ i) :
    (lifNeuronStep J st i).1.synaptic_current j = st.1.synaptic_current j ∧
    (lifNeuronStep J st i).1.membrane_potential j = st.1.membrane_potential j ∧
    (lifNeuronStep J st i).2 j = st.2 j := by
  by_cases hc : st.1.params.v_thresh ≤
      st.1.beta_mem * st.1.membrane_potential i +
        (st.1.beta_syn * st.1.synaptic_current i + J i)
  · simp [lifNeuronStep, hc, updAt_other _ _ _ _ h]
  · simp [lifNeuronStep, hc, updAt_other _ _ _ _ h]

theorem lifNeuronStep_at (J : Nat → ℚ) (st : LIFLayer × (Nat → ℚ)) (i : Nat) :
    (lifNeuronStep J st i).1.synaptic_current i =
      st.1.beta_syn * st.1.synaptic_current i + J i ∧
    (lifNeuronStep J st i).1.membrane_potential i =
      (if st.1.params.v_thresh ≤
          st.1.beta_mem * st.1.membrane_potential i +
            (st.1.beta_syn * st.1.synaptic_current i + J i)
       then st.1.params.v_reset
       else st.1.beta_mem * st.1.membrane_potential i +
            (st.1.beta_syn * st.1.synaptic_current i + J i)) ∧
    (lifNeuronStep J st i).2 i =
      (if st.1.params.v_thresh ≤
          st.1.beta_mem * st.1.membrane_potential i +
            (st.1.beta_syn * st.1.synaptic_current i + J i)
       then (1 : ℚ) else 0) := by
  by_cases hc : st.1.params.v_thresh ≤
      st.1.beta_mem * st.1.membrane_potential i +
        (st.1.beta_syn * st.1.synaptic_current i + J i)
  · simp [lifNeuronStep, hc, updAt_same]
  · simp [lifNeuronStep, hc, updAt_same]

/-- Characterization of the `update_neurons` pass truncated to the first `m`
neurons: neurons `i < m` carry their updated values (expressed in terms of the
state before the pass), neurons `i ≥ m` and the output buffer beyond `m` are
untouched, and the non-state fields are unchanged. -/
theorem update_fold_spec (L : LIFLayer) (J out : Nat → ℚ) (m : Nat) :
    sameShape ((List.range m).foldl (lifNeuronStep J) (L, out)).1 L ∧
    (∀ i, m ≤ i →
      ((List.range m).foldl (lifNeuronStep J) (L, out)).1.synaptic_current i =
        L.synaptic_current i ∧
      ((List.range m).foldl (lifNeuronStep J) (L, out)).1.membrane_potential i =
        L.membrane_potential i ∧
      ((List.range m).foldl (lifNeuronStep J) (L, out)).2 i = out i) ∧
    (∀ i, i < m →
      ((List.range m).foldl (lifNeuronStep J) (L, out)).1.synaptic_current i =
        lifNewCurrent L J i ∧
      ((List.range m).foldl (lifNeuronStep J) (L, out)).1.membrane_potential i =
        lifNewPotential L J i ∧
      ((List.range m).foldl (lifNeuronStep J) (L, out)).2 i = lifSpike L J i) := by
  induction m with
  | zero =>
      refine ⟨⟨rfl, rfl, rfl, rfl, rfl, rfl, rfl⟩, fun i _ => ⟨rfl, rfl, rfl⟩,
        fun i hi => absurd hi (Nat.not_lt_zero i)⟩
  | succ m ih =>
      obtain ⟨hshape, huntouched, hdone⟩ := ih
      obtain ⟨hin, hout, hpar, hbm, hbs, hw, hb⟩ := hshape
      set st := (List.range m).foldl (lifNeuronStep J) (L, out) with hst
      have hfold : (List.range (m + 1)).foldl (lifNeuronStep J) (L, out) =
          lifNeuronStep J st m := by
        rw [List.range_succ, List.foldl_append, List.foldl_cons, List.foldl_nil]
      obtain ⟨hsc, hmp, hob⟩ := huntouched m (le_refl m)
      have hstep := lifNeuronStep_at J st m
      rw [hfold]
      refine ⟨?_, fun i hi => ?_, fun i hi => ?_⟩
      · have h1 := lifNeuronStep_shape J st m
        exact ⟨h1.1.trans hin, h1.2.1.trans hout, h1.2.2.1.trans hpar,
          h1.2.2.2.1.trans hbm, h1.2.2.2.2.1.trans hbs,
          h1.2.2.2.2.2.1.trans hw, h1.2.2.2.2.2.2.trans hb⟩
      · have hne : i ≠ m := by omega
        have hfr := lifNeuronStep_frame J st m i hne
        have hu := huntouched i (by omega)
        exact ⟨hfr.1.trans hu.1, hfr.2.1.trans hu.2.1, hfr.2.2.trans hu.2.2⟩
      · rcases Nat.lt_succ_iff_lt_or_eq.mp hi with hlt | heq
        · have hne : i ≠ m := by omega
          have hfr := lifNeuronStep_frame J st m i hne
          have hd := hdone i hlt
          exact ⟨hfr.1.trans hd.1, hfr.2.1.trans hd.2.1, hfr.2.2.trans hd.2.2⟩
        · subst heq
          obtain ⟨h1, h2, h3⟩ := hstep
          rw [hbs, hsc] at h1
          rw [hpar, hbm, hbs, hmp, hsc] at h2 h3
          exact ⟨h1, by rw [h2]; rfl, by rw [h3]; rfl⟩

/-- C1: for every `LIFLayer` and every call to `forward`, each output neuron
`i` is updated in a single pass as: `synaptic_current[i]` becomes
`beta_syn * synaptic_current[i] + synaptic_input[i]`; then
`membrane_potential[i]` becomes
`beta_mem * membrane_potential[i] + synaptic_current[i]`; then if
`membrane_potential[i] ≥ v_thresh` the emitted spike is `1` and
`membrane_potential[i]` is set to `v_reset` (hard reset), otherwise the spike
is `0` and the potential keeps its decayed value; where
`synaptic_input = Weights · input_spikes + bias`. -/
theorem claim_C1_lif_forward_dynamics (L : LIFLayer)
    (input_spikes out : Nat → ℚ) (i : Nat) (hi : i < L.output_size) :
    let J := fun o =>
      spike_dense_scalar input_spikes L.weights L.bias L.input_size 0 o
    (L.forward input_spikes out).1.synaptic_current i =
        L.beta_syn * L.synaptic_current i + J i ∧
    (L.forward input_spikes out).1.membrane_potential i =
        (if L.params.v_thresh ≤ L.beta_mem * L.membrane_potential i +
            (L.beta_syn * L.synaptic_current i + J i)
         then L.params.v_reset
         else L.beta_mem * L.membrane_potential i +
            (L.beta_syn * L.synaptic_current i + J i)) ∧
    (L.forward input_spikes out).2 i =
        (if L.params.v_thresh ≤ L.beta_mem * L.membrane_potential i +
            (L.beta_syn * L.synaptic_current i + J i)
         then (1 : ℚ) else 0) ∧
    J i = L.bias i + ∑ k ∈ Finset.range L.input_size,
        L.weights (i * L.input_size + k) * input_spikes k := by
  intro J
  have h := (update_fold_spec L J out L.output_size).2.2 i hi
  have hJ : J i = L.bias i + ∑ k ∈ Finset.range L.input_size,
      L.weights (i * L.input_size + k) * input_spikes k := by
    show spike_dense_scalar input_spikes L.weights L.bias L.input_size 0 i = _
    rw [spike_dense_scalar, loopAcc_eq_sum]
    simp
  exact ⟨h.1, h.2.1, h.2.2, hJ⟩

/-- C4: after `reset()` every neuron's membrane potential equals `v_rest` and
every synaptic current equals `0`, and `reset()` is idempotent. -/
theorem claim_C4_reset_idempotent (L : LIFLayer) :
    (∀ i, L.reset.membrane_potential i = L.params.v_rest) ∧
    (∀ i, L.reset.synaptic_current i = 0) ∧
    L.reset.reset = L.reset :=
  ⟨fun _ => rfl, fun _ => rfl, rfl⟩

/-- C5: every element written to `output_spikes` by `forward` is exactly `0`
or exactly `1`. -/
theorem claim_C5_spikes_binary (L : LIFLayer) (input out : Nat → ℚ)
    (i : Nat) (hi : i < L.output_size) :
    (L.forward input out).2 i = 0 ∨ (L.forward input out).2 i = 1 := by
  have h := (update_fold_spec L
    (fun o => spike_dense_scalar input L.weights L.bias L.input_size 0 o)
    out L.output_size).2.2 i hi
  rw [show (L.forward input out).2 i =
      ((List.range L.output_size).foldl
        (lifNeuronStep fun o =>
          spike_dense_scalar input L.weights L.bias L.input_size 0 o)
        (L, out)).2 i from rfl, h.2.2, lifSpike]
  split
  · exact Or.inr rfl
  · exact Or.inl rfl

/-- A concrete layer for witnesses: 4 inputs, 2 neurons, the parameters of
spec Scenario A, uniform weights `0.5`, zero bias, state at rest. -/
def demoLayer : LIFLayer where
  input_size := 4
  output_size := 2
  params := ⟨10, 5, 1, 0, 0, 1⟩
  weights := fun _ => 1 / 2
  bias := fun _ => 0
  membrane_potential := fun _ => 0
  synaptic_current := fun _ => 0
  beta_mem := 9 / 10
  beta_syn := 4 / 5

/-- The input spike vector `[1, 0, 0, 1]` of spec Scenario A. -/
def demoInput : Nat → ℚ := fun k => if k = 0 then 1 else if k = 3 then 1 else 0

theorem claim_C1_lif_forward_dynamics_witness :
    1 < demoLayer.output_size ∧
    (let J := fun o =>
      spike_dense_scalar demoInput demoLayer.weights demoLayer.bias
        demoLayer.input_size 0 o
    (demoLayer.forward demoInput (fun _ => 0)).1.synaptic_current 1 =
        demoLayer.beta_syn * demoLayer.synaptic_current 1 + J 1 ∧
    (demoLayer.forward demoInput (fun _ => 0)).1.membrane_potential 1 =
        (if demoLayer.params.v_thresh ≤
            demoLayer.beta_mem * demoLayer.membrane_potential 1 +
            (demoLayer.beta_syn * demoLayer.synaptic_current 1 + J 1)
         then demoLayer.params.v_reset
         else demoLayer.beta_mem * demoLayer.membrane_potential 1 +
            (demoLayer.beta_syn * demoLayer.synaptic_current 1 + J 1)) ∧
    (demoLayer.forward demoInput (fun _ => 0)).2 1 =
        (if demoLayer.params.v_thresh ≤
            demoLayer.beta_mem * demoLayer.membrane_potential 1 +
            (demoLayer.beta_syn * demoLayer.synaptic_current 1 + J 1)
         then (1 : ℚ) else 0) ∧
    J 1 = demoLayer.bias 1 + ∑ k ∈ Finset.range demoLayer.input_size,
        demoLayer.weights (1 * demoLayer.input_size + k) * demoInput k) :=
  ⟨by decide,
   claim_C1_lif_forward_dynamics demoLayer demoInput (fun _ => 0) 1 (by decide)⟩

theorem claim_C5_spikes_binary_witness :
    1 < demoLayer.output_size ∧
    ((demoLayer.forward demoInput (fun _ => 0)).2 1 = 0 ∨
     (demoLayer.forward demoInput (fun _ => 0)).2 1 = 1) :=
  ⟨by decide,
   claim_C5_spikes_binary demoLayer demoInput (fun _ => 0) 1 (by decide)⟩

/-! ## Spike encoders (`spike_encoder.h`, `spike_encoder.cpp`)

The mt19937 generator with its `uniform_real_distribution` is a deterministic
function of the seed: it is modelled by a parameter `u01 : Nat → Nat → ℚ`
mapping a seed and a draw index to the draw.  The float logistic
`1/(1+exp(-x))` is transcendental and is modelled by a parameter
`sig : ℚ → ℚ` applied to `gain * input`. -/

/-- `RateEncoder` (header-only): gain, seed, and the position reached in the
generator's draw stream (the state of `rng_`). Default construction is
`gain = 10`, `seed = 42`, stream at the start. -/
structure RateEncoder where
  gain : ℚ
  seed : Nat
  counter : Nat

/-- `RateEncoder::encode`: draw `dist_(rng_)`, spike iff the draw is below
`sigmoid(gain_ * input)`. -/
def RateEncoder.encode (u01 : Nat → Nat → ℚ) (sig : ℚ → ℚ)
    (e : RateEncoder) (input : ℚ) : RateEncoder × ℚ :=
  ({ e with counter := e.counter + 1 },
   if u01 e.seed e.counter < sig (e.gain * input) then 1 else 0)

/-- The C cast `static_cast<int>` from float, truncation toward zero. -/
def cIntOfRat (q : ℚ) : Int :=
  if 0 ≤ q then Int.floor q else Int.ceil q

/-- `LatencyEncoder` (header-only). -/
structure LatencyEncoder where
  num_steps : Int

/-- `LatencyEncoder::encode`: normalize the input to `[0,1]` by
`(x+1)/2` clamped, convert to a spike time `(int)((1 - normalized) * num_steps)`
and cap it at `num_steps - 1`. -/
def LatencyEncoder.encode (e : LatencyEncoder) (input : ℚ) : Int :=
  let normalized := max 0 (min 1 ((input + 1) / 2))
  let spike_time := cIntOfRat ((1 - normalized) * (e.num_steps : ℚ))
  min spike_time (e.num_steps - 1)

/-- `TemporalContrastEncoder` (`spike_encoder.cpp`): stateful ON/OFF edge
detector with a stored previous sample per feature. -/
structure TemporalContrastEncoder where
  input_size : Nat
  threshold : ℚ
  prev_input : Nat → ℚ

/-- The constructor: previous samples initialized to `0`
(default `threshold = 0.1`). -/
def TemporalContrastEncoder.create (input_size : Nat) (threshold : ℚ) :
    TemporalContrastEncoder :=
  ⟨input_size, threshold, fun _ => 0⟩

/-- The body of the `TemporalContrastEncoder::encode` loop at index `i`,
acting on the encoder state and the two caller buffers. -/
def tcStep (input : Nat → ℚ)
    (st : TemporalContrastEncoder × (Nat → ℚ) × (Nat → ℚ)) (i : Nat) :
    TemporalContrastEncoder × (Nat → ℚ) × (Nat → ℚ) :=
  let e := st.1
  let delta := input i - e.prev_input i
  let buffers :=
    if e.threshold < delta then (updAt st.2.1 i 1, updAt st.2.2 i 0)
    else if delta < -e.threshold then (updAt st.2.1 i 0, updAt st.2.2 i 1)
    else (updAt st.2.1 i 0, updAt st.2.2 i 0)
  ({ e with prev_input := updAt e.prev_input i (input i) }, buffers)

/-- `TemporalContrastEncoder::encode`: the loop over all features. -/
def TemporalContrastEncoder.encode (e : TemporalContrastEncoder)
    (input on_spikes off_spikes : Nat → ℚ) :
    TemporalContrastEncoder × (Nat → ℚ) × (Nat → ℚ) :=
  (List.range e.input_size).foldl (tcStep input) (e, on_spikes, off_spikes)

/-- `SpikeEncoder::EncodingType` (`cortexn_snn.h`). -/
inductive EncodingType
  | RATE
  | LATENCY
  | TEMPORAL
deriving DecidableEq

/-- `SpikeEncoder` (`cortexn_snn.h`): its only members are the two sizes and
the encoding type — no random generator is stored on the object. -/
structure SpikeEncoder where
  input_size : Nat
  num_steps : Nat
  type : EncodingType
deriving DecidableEq

/-- The body of the innermost `encode_rate` loop at `(t, b, i)`: draw the
next sample from the encoder and store the spike at
`spike_trains[t * batch_size * input_size + b * input_size + i]`. -/
def rateStep (u01 : Nat → Nat → ℚ) (sig : ℚ → ℚ) (ins batch : Nat)
    (input : Nat → ℚ) (t b : Nat) (st : RateEncoder × (Nat → ℚ)) (i : Nat) :
    RateEncoder × (Nat → ℚ) :=
  let r := RateEncoder.encode u01 sig st.1 (input (b * ins + i))
  (r.1, updAt st.2 (t * batch * ins + b * ins + i) r.2)

/-- The `for (i ...)` loop of `encode_rate`. -/
def rateInner (u01 : Nat → Nat → ℚ) (sig : ℚ → ℚ) (ins batch : Nat)
    (input : Nat → ℚ) (t b : Nat) (st : RateEncoder × (Nat → ℚ)) :
    RateEncoder × (Nat → ℚ) :=
  (List.range ins).foldl (rateStep u01 sig ins batch input t b) st

/-- The `for (b ...)` loop of `encode_rate`. -/
def rateMiddle (u01 : Nat → Nat → ℚ) (sig : ℚ → ℚ) (ins batch : Nat)
    (input : Nat → ℚ) (t : Nat) (st : RateEncoder × (Nat → ℚ)) :
    RateEncoder × (Nat → ℚ) :=
  (List.range batch).foldl (fun st b => rateInner u01 sig ins batch input t b st) st

/-- `SpikeEncoder::encode_rate`: constructs a fresh default `RateEncoder`
(gain `10`, seed `42`, stream at the start) and fills
`spike_trains[t * batch * input_size + b * input_size + i]` in loop order
`t`, `b`, `i`, consuming one draw per entry. -/
def SpikeEncoder.encode_rate (u01 : Nat → Nat → ℚ) (sig : ℚ → ℚ)
    (ins steps : Nat) (input buf : Nat → ℚ) (batch : Nat) : Nat → ℚ :=
  ((List.range steps).foldl (fun st t => rateMiddle u01 sig ins batch input t st)
    (⟨10, 42, 0⟩, buf)).2

/-- The body of the `encode_latency` loop at `(b, i)`: compute the spike time
and set `spike_trains[spike_time * batch_size * input_size + b * input_size + i] = 1`. -/
def latStep (ins steps batch : Nat) (input : Nat → ℚ) (b : Nat)
    (bf : Nat → ℚ) (i : Nat) : Nat → ℚ :=
  let spike_time := (LatencyEncoder.mk (steps : Int)).encode (input (b * ins + i))
  updAt bf (spike_time.toNat * batch * ins + b * ins + i) 1

/-- `SpikeEncoder::encode_latency`: zero the whole spike train
(`memset` over `num_steps * batch * input_size` floats), then for each
`(b, i)` set the single entry at the encoded spike time to `1`. -/
def SpikeEncoder.encode_latency (ins steps : Nat) (input buf : Nat → ℚ)
    (batch : Nat) : Nat → ℚ :=
  let zeroed : Nat → ℚ := fun idx => if idx < steps * batch * ins then 0 else buf idx
  (List.range batch).foldl (fun bf b =>
    (List.range ins).foldl (latStep ins steps batch input b) bf) zeroed

/-- `SpikeEncoder::encode`: dispatch on the encoding type.  The `default`
branch (hit by `TEMPORAL`) only logs "Unsupported encoding type": it writes
nothing and mutates nothing. -/
def SpikeEncoder.encode (u01 : Nat → Nat → ℚ) (sig : ℚ → ℚ)
    (s : SpikeEncoder) (input buf : Nat → ℚ) (batch : Nat) :
    SpikeEncoder × (Nat → ℚ) :=
  match s.type with
  | .RATE => (s, SpikeEncoder.encode_rate u01 sig s.input_size s.num_steps input buf batch)
  | .LATENCY => (s, SpikeEncoder.encode_latency s.input_size s.num_steps input buf batch)
  | .TEMPORAL => (s, buf)

theorem tcStep_shape (input : Nat → ℚ)
    (st : TemporalContrastEncoder × (Nat → ℚ) × (Nat → ℚ)) (i : Nat) :
    (tcStep input st i).1.input_size = st.1.input_size ∧
    (tcStep input st i).1.threshold = st.1.threshold := by
  by_cases h1 : st.1.threshold < input i - st.1.prev_input i
  · simp [tcStep, h1]
  · by_cases h2 : input i - st.1.prev_input i < -st.1.threshold <;>
      simp [tcStep, h1, h2]

theorem tcStep_frame (input : Nat → ℚ)
    (st : TemporalContrastEncoder × (Nat → ℚ) × (Nat → ℚ)) (i j : Nat)
    (h : j ≠ i) :
    (tcStep input st i).1.prev_input j = st.1.prev_input j ∧
    (tcStep input st i).2.1 j = st.2.1 j ∧
    (tcStep input st i).2.2 j = st.2.2 j := by
  by_cases h1 : st.1.threshold < input i - st.1.prev_input i
  · simp [tcStep, h1, updAt_other _ _ _ _ h]
  · by_cases h2 : input i - st.1.prev_input i < -st.1.threshold <;>
      simp [tcStep, h1, h2, updAt_other _ _ _ _ h]

theorem tcStep_at (input : Nat → ℚ)
    (st : TemporalContrastEncoder × (Nat → ℚ) × (Nat → ℚ)) (i : Nat) :
    (tcStep input st i).1.prev_input i = input i ∧
    (tcStep input st i).2.1 i =
      (if st.1.threshold < input i - st.1.prev_input i then (1 : ℚ) else 0) ∧
    (tcStep input st i).2.2 i =
      (if st.1.threshold < input i - st.1.prev_input i then (0 : ℚ)
       else if input i - st.1.prev_input i < -st.1.threshold then 1 else 0) := by
  by_cases h1 : st.1.threshold < input i - st.1.prev_input i
  · simp [tcStep, h1, updAt_same]
  · by_cases h2 : input i - st.1.prev_input i < -st.1.threshold <;>
      simp [tcStep, h1, h2, updAt_same]

/-- Characterization of the temporal-contrast loop truncated to the first `m`
features: processed features carry the ON/OFF rule values (in terms of the
state before the call) and the updated previous sample; the rest are
untouched. -/
theorem tc_fold_spec (e : TemporalContrastEncoder) (input on0 off0 : Nat → ℚ)
    (m : Nat) :
    ((List.range m).foldl (tcStep input) (e, on0, off0)).1.input_size =
      e.input_size ∧
    ((List.range m).foldl (tcStep input) (e, on0, off0)).1.threshold =
      e.threshold ∧
    (∀ i, m ≤ i →
      ((List.range m).foldl (tcStep input) (e, on0, off0)).1.prev_input i =
        e.prev_input i ∧
      ((List.range m).foldl (tcStep input) (e, on0, off0)).2.1 i = on0 i ∧
      ((List.range m).foldl (tcStep input) (e, on0, off0)).2.2 i = off0 i) ∧
    (∀ i, i < m →
      ((List.range m).foldl (tcStep input) (e, on0, off0)).1.prev_input i =
        input i ∧
      ((List.range m).foldl (tcStep input) (e, on0, off0)).2.1 i =
        (if e.threshold < input i - e.prev_input i then (1 : ℚ) else 0) ∧
      ((List.range m).foldl (tcStep input) (e, on0, off0)).2.2 i =
        (if e.threshold < input i - e.prev_input i then (0 : ℚ)
         else if input i - e.prev_input i < -e.threshold then 1 else 0)) := by
  induction m with
  | zero =>
      exact ⟨rfl, rfl, fun i _ => ⟨rfl, rfl, rfl⟩,
        fun i hi => absurd hi (Nat.not_lt_zero i)⟩
  | succ m ih =>
      obtain ⟨hsize, hthr, huntouched, hdone⟩ := ih
      set st := (List.range m).foldl (tcStep input) (e, on0, off0) with hst
      have hfold : (List.range (m + 1)).foldl (tcStep input) (e, on0, off0) =
          tcStep input st m := by
        rw [List.range_succ, List.foldl_append, List.foldl_cons, List.foldl_nil]
      obtain ⟨hprev, hon, hoff⟩ := huntouched m (le_refl m)
      rw [hfold]
      have hsh := tcStep_shape input st m
      refine ⟨hsh.1.trans hsize, hsh.2.trans hthr, fun i hi => ?_, fun i hi => ?_⟩
      · have hne : i ≠ m := by omega
        have hfr := tcStep_frame input st m i hne
        have hu := huntouched i (by omega)
        exact ⟨hfr.1.trans hu.1, hfr.2.1.trans hu.2.1, hfr.2.2.trans hu.2.2⟩
      · rcases Nat.lt_succ_iff_lt_or_eq.mp hi with hlt | heq
        · have hne : i ≠ m := by omega
          have hfr := tcStep_frame input st m i hne
          have hd := hdone i hlt
          exact ⟨hfr.1.trans hd.1, hfr.2.1.trans hd.2.1, hfr.2.2.trans hd.2.2⟩
        · subst heq
          obtain ⟨h1, h2, h3⟩ := tcStep_at input st i
          rw [hthr, hprev] at h2 h3
          exact ⟨h1, h2, h3⟩

/-- C10: `SpikeEncoder::encode` with `EncodingType::TEMPORAL` writes nothing
to the output buffer and changes no encoder state (the `default` branch only
logs an error), so the temporal-contrast path is unreachable through the
public `SpikeEncoder` interface — even though the separate
`TemporalContrastEncoder` class does implement the ON/OFF edge-detection
rule and the previous-sample update. -/
theorem claim_C10_temporal_unreachable (u01 : Nat → Nat → ℚ) (sig : ℚ → ℚ)
    (ins steps : Nat) (input buf : Nat → ℚ) (batch : Nat)
    (e : TemporalContrastEncoder) (tcin on0 off0 : Nat → ℚ) (i : Nat)
    (hi : i < e.input_size) :
    SpikeEncoder.encode u01 sig ⟨ins, steps, EncodingType.TEMPORAL⟩ input buf batch =
      (⟨ins, steps, EncodingType.TEMPORAL⟩, buf) ∧
    (e.encode tcin on0 off0).2.1 i =
      (if e.threshold < tcin i - e.prev_input i then (1 : ℚ) else 0) ∧
    (e.encode tcin on0 off0).2.2 i =
      (if e.threshold < tcin i - e.prev_input i then (0 : ℚ)
       else if tcin i - e.prev_input i < -e.threshold then 1 else 0) ∧
    (e.encode tcin on0 off0).1.prev_input i = tcin i := by
  have h := (tc_fold_spec e tcin on0 off0 e.input_size).2.2.2 i hi
  exact ⟨rfl, h.2.1, h.2.2, h.1⟩

theorem claim_C10_temporal_unreachable_witness :
    0 < (TemporalContrastEncoder.create 2 (1 / 10)).input_size ∧
    (SpikeEncoder.encode (fun _ _ => 0) (fun _ => 0)
        ⟨3, 4, EncodingType.TEMPORAL⟩ (fun _ => 1) (fun _ => 5) 1 =
      (⟨3, 4, EncodingType.TEMPORAL⟩, fun _ => 5) ∧
    ((TemporalContrastEncoder.create 2 (1 / 10)).encode (fun _ => 1)
        (fun _ => 0) (fun _ => 0)).2.1 0 =
      (if (TemporalContrastEncoder.create 2 (1 / 10)).threshold <
          (fun _ => (1 : ℚ)) 0 -
            (TemporalContrastEncoder.create 2 (1 / 10)).prev_input 0
       then (1 : ℚ) else 0) ∧
    ((TemporalContrastEncoder.create 2 (1 / 10)).encode (fun _ => 1)
        (fun _ => 0) (fun _ => 0)).2.2 0 =
      (if (TemporalContrastEncoder.create 2 (1 / 10)).threshold <
          (fun _ => (1 : ℚ)) 0 -
            (TemporalContrastEncoder.create 2 (1 / 10)).prev_input 0
       then (0 : ℚ)
       else if (fun _ => (1 : ℚ)) 0 -
            (TemporalContrastEncoder.create 2 (1 / 10)).prev_input 0 <
            -(TemporalContrastEncoder.create 2 (1 / 10)).threshold
       then 1 else 0) ∧
    ((TemporalContrastEncoder.create 2 (1 / 10)).encode (fun _ => 1)
        (fun _ => 0) (fun _ => 0)).1.prev_input 0 = (fun _ => (1 : ℚ)) 0) :=
  ⟨by decide,
   claim_C10_temporal_unreachable (fun _ _ => 0) (fun _ => 0) 3 4 (fun _ => 1)
     (fun _ => 5) 1 (TemporalContrastEncoder.create 2 (1 / 10)) (fun _ => 1)
     (fun _ => 0) (fun _ => 0) 0 (by decide)⟩

/-! ## Latency encoding: single spike per feature -/

/-- Uniqueness of the base-`M` decomposition `K * M + r`, `r < M`. -/
theorem mul_add_cancel (M K r K' r' : Nat) (hr : r < M) (hr' : r' < M)
    (h : K * M + r = K' * M + r') : K = K' ∧ r = r' := by
  have hM : 0 < M := Nat.lt_of_le_of_lt (Nat.zero_le r) hr
  have hK : K = K' := by
    have e1 : (M * K + r) / M = K := by
      rw [Nat.mul_add_div hM, Nat.div_eq_of_lt hr, Nat.add_zero]
    have e2 : (M * K' + r') / M = K' := by
      rw [Nat.mul_add_div hM, Nat.div_eq_of_lt hr', Nat.add_zero]
    rw [Nat.mul_comm M K] at e1
    rw [Nat.mul_comm M K'] at e2
    rw [← e1, ← e2, h]
  refine ⟨hK, ?_⟩
  subst hK
  exact Nat.add_left_cancel h

/-- The physical index written by `encode_latency` for feature `(b, i)`. -/
def latPos (ins steps batch : Nat) (input : Nat → ℚ) (b i : Nat) : Nat :=
  ((LatencyEncoder.mk (steps : Int)).encode (input (b * ins + i))).toNat *
    batch * ins + b * ins + i

theorem latStep_eq (ins steps batch : Nat) (input : Nat → ℚ) (b : Nat)
    (bf : Nat → ℚ) (i : Nat) :
    latStep ins steps batch input b bf i =
      updAt bf (latPos ins steps batch input b i) 1 := rfl

theorem latPos_decomp (ins steps batch : Nat) (input : Nat → ℚ) (b i : Nat) :
    latPos ins steps batch input b i =
      ((LatencyEncoder.mk (steps : Int)).encode (input (b * ins + i))).toNat *
        (batch * ins) + (b * ins + i) := by
  unfold latPos
  ring

theorem latPos_mod_ins (ins steps batch : Nat) (input : Nat → ℚ) (b i : Nat)
    (hi : i < ins) : latPos ins steps batch input b i % ins = i := by
  have h : latPos ins steps batch input b i =
      (((LatencyEncoder.mk (steps : Int)).encode (input (b * ins + i))).toNat *
        batch + b) * ins + i := by
    unfold latPos; ring
  rw [h, Nat.mul_comm _ ins, Nat.mul_add_mod, Nat.mod_eq_of_lt hi]

/-- The inner `encode_latency` loop over the first `m` features of batch
entry `b`: the position of each processed feature holds `1`, every other
position is untouched. -/
theorem lat_inner_spec (ins steps batch : Nat) (input : Nat → ℚ) (b : Nat)
    (bf : Nat → ℚ) :
    ∀ m, m ≤ ins →
      (∀ i0, i0 < m →
        ((List.range m).foldl (latStep ins steps batch input b) bf)
          (latPos ins steps batch input b i0) = 1) ∧
      (∀ q, (∀ i0, i0 < m → q ≠ latPos ins steps batch input b i0) →
        ((List.range m).foldl (latStep ins steps batch input b) bf) q = bf q) := by
  intro m
  induction m with
  | zero =>
      exact fun _ => ⟨fun i0 h => absurd h (Nat.not_lt_zero i0),
        fun q _ => rfl⟩
  | succ m ih =>
      intro hm
      obtain ⟨ihw, ihu⟩ := ih (by omega)
      have hfold : (List.range (m + 1)).foldl (latStep ins steps batch input b) bf =
          latStep ins steps batch input b
            ((List.range m).foldl (latStep ins steps batch input b) bf) m := by
        rw [List.range_succ, List.foldl_append, List.foldl_cons, List.foldl_nil]
      rw [hfold, latStep_eq]
      constructor
      · intro i0 hi0
        rcases Nat.lt_succ_iff_lt_or_eq.mp hi0 with hlt | heq
        · have hne : latPos ins steps batch input b i0 ≠
              latPos ins steps batch input b m := by
            intro hcontra
            have h1 := latPos_mod_ins ins steps batch input b i0 (by omega)
            have h2 := latPos_mod_ins ins steps batch input b m (by omega)
            rw [hcontra, h2] at h1
            omega
          rw [updAt_other _ _ _ _ hne]
          exact ihw i0 hlt
        · subst heq
          exact updAt_same _ _ _
      · intro q hq
        rw [updAt_other _ _ _ _ (hq m (by omega))]
        exact ihu q (fun i0 hi0 => hq i0 (by omega))

/-- The outer `encode_latency` loop over the first `mB` batch entries. -/
theorem lat_outer_spec (ins steps batch : Nat) (input : Nat → ℚ)
    (bf : Nat → ℚ) :
    ∀ mB, mB ≤ batch →
      (∀ b0 i0, b0 < mB → i0 < ins →
        ((List.range mB).foldl (fun bf b =>
            (List.range ins).foldl (latStep ins steps batch input b) bf) bf)
          (latPos ins steps batch input b0 i0) = 1) ∧
      (∀ q, (∀ b0 i0, b0 < mB → i0 < ins → q ≠ latPos ins steps batch input b0 i0) →
        ((List.range mB).foldl (fun bf b =>
            (List.range ins).foldl (latStep ins steps batch input b) bf) bf) q = bf q) := by
  intro mB
  induction mB with
  | zero =>
      exact fun _ => ⟨fun b0 i0 h _ => absurd h (Nat.not_lt_zero b0),
        fun q _ => rfl⟩
  | succ mB ih =>
      intro hmB
      obtain ⟨ihw, ihu⟩ := ih (by omega)
      set prev := (List.range mB).foldl (fun bf b =>
        (List.range ins).foldl (latStep ins steps batch input b) bf) bf with hprev
      have hfold : (List.range (mB + 1)).foldl (fun bf b =>
          (List.range ins).foldl (latStep ins steps batch input b) bf) bf =
          (List.range ins).foldl (latStep ins steps batch input mB) prev := by
        rw [List.range_succ, List.foldl_append, List.foldl_cons, List.foldl_nil]
      obtain ⟨innw, innu⟩ := lat_inner_spec ins steps batch input mB prev ins (le_refl ins)
      have hdistinct : ∀ b0 i0 i1, b0 ≠ mB → b0 < batch → i0 < ins → i1 < ins →
          latPos ins steps batch input b0 i0 ≠ latPos ins steps batch input mB i1 := by
        intro b0 i0 i1 hne hb0 hi0 hi1 hcontra
        rw [latPos_decomp, latPos_decomp] at hcontra
        have hr0 : b0 * ins + i0 < batch * ins := by
          calc b0 * ins + i0 < b0 * ins + ins := by omega
          _ = (b0 + 1) * ins := by ring
          _ ≤ batch * ins := Nat.mul_le_mul_right ins (by omega)
        have hr1 : mB * ins + i1 < batch * ins := by
          calc mB * ins + i1 < mB * ins + ins := by omega
          _ = (mB + 1) * ins := by ring
          _ ≤ batch * ins := Nat.mul_le_mul_right ins (by omega)
        obtain ⟨-, hr⟩ := mul_add_cancel (batch * ins) _ _ _ _ hr0 hr1 hcontra
        obtain ⟨hb, -⟩ := mul_add_cancel ins b0 i0 mB i1 hi0 hi1 hr
        exact hne hb
      rw [hfold]
      constructor
      · intro b0 i0 hb0 hi0
        rcases Nat.lt_succ_iff_lt_or_eq.mp hb0 with hlt | heq
        · rw [innu _ (fun i1 hi1 =>
            hdistinct b0 i0 i1 (by omega) (by omega) hi0 hi1)]
          exact ihw b0 i0 hlt hi0
        · subst heq
          exact innw i0 hi0
      · intro q hq
        rw [innu q (fun i1 hi1 h1 => hq mB i1 (by omega) hi1 h1)]
        exact ihu q (fun b0 i0 hb0 hi0 => hq b0 i0 (by omega) hi0)

theorem latency_encode_eq_floor (steps : Nat) (x : ℚ) :
    (LatencyEncoder.mk (steps : Int)).encode x =
      min (Int.floor ((1 - max 0 (min 1 ((x + 1) / 2))) * (steps : ℚ)))
        ((steps : Int) - 1) := by
  have h1 : max 0 (min 1 ((x + 1) / 2)) ≤ 1 :=
    max_le (by norm_num) (min_le_left _ _)
  have harg : 0 ≤ (1 - max 0 (min 1 ((x + 1) / 2))) * (steps : ℚ) :=
    mul_nonneg (by linarith) (by positivity)
  simp only [LatencyEncoder.encode, cIntOfRat]
  push_cast
  rw [if_pos harg]

theorem latency_encode_bounds (steps : Nat) (hs : 1 ≤ steps) (x : ℚ) :
    0 ≤ (LatencyEncoder.mk (steps : Int)).encode x ∧
    (LatencyEncoder.mk (steps : Int)).encode x ≤ (steps : Int) - 1 := by
  rw [latency_encode_eq_floor]
  have h1 : max 0 (min 1 ((x + 1) / 2)) ≤ 1 :=
    max_le (by norm_num) (min_le_left _ _)
  have harg : 0 ≤ (1 - max 0 (min 1 ((x + 1) / 2))) * (steps : ℚ) :=
    mul_nonneg (by linarith) (by positivity)
  refine ⟨le_min (Int.le_floor.mpr (by exact_mod_cast harg)) ?_, min_le_right _ _⟩
  have : (1 : Int) ≤ (steps : Int) := by exact_mod_cast hs
  omega

theorem latency_encode_antitone (steps : Nat) (x y : ℚ) (hxy : x ≤ y) :
    (LatencyEncoder.mk (steps : Int)).encode y ≤
      (LatencyEncoder.mk (steps : Int)).encode x := by
  rw [latency_encode_eq_floor, latency_encode_eq_floor]
  refine min_le_min ?_ (le_refl _)
  apply Int.floor_le_floor
  apply mul_le_mul_of_nonneg_right _ (by positivity)
  have h1 : max 0 (min 1 ((x + 1) / 2)) ≤ max 0 (min 1 ((y + 1) / 2)) := by
    apply max_le_max (le_refl (0 : ℚ))
    apply min_le_min (le_refl (1 : ℚ))
    linarith
  linarith

/-- The spike train produced by `encode_latency`: at feature `(b, i)` the
time-step slice holds `1` exactly at the encoded spike time and `0` at every
other time-step. -/
theorem encode_latency_spec (ins steps batch : Nat) (input buf : Nat → ℚ)
    (b i t : Nat) (hs : 1 ≤ steps) (hb : b < batch) (hi : i < ins)
    (ht : t < steps) :
    SpikeEncoder.encode_latency ins steps input buf batch
        (t * batch * ins + b * ins + i) =
      (if (t : Int) =
          (LatencyEncoder.mk (steps : Int)).encode (input (b * ins + i))
       then (1 : ℚ) else 0) := by
  obtain ⟨hw, hu⟩ := lat_outer_spec ins steps batch input
    (fun idx => if idx < steps * batch * ins then 0 else buf idx) batch
    (le_refl batch)
  simp only [SpikeEncoder.encode_latency]
  have hrlt : ∀ b0 i0, b0 < batch → i0 < ins → b0 * ins + i0 < batch * ins := by
    intro b0 i0 hb0 hi0
    calc b0 * ins + i0 < b0 * ins + ins := by omega
    _ = (b0 + 1) * ins := by ring
    _ ≤ batch * ins := Nat.mul_le_mul_right ins (by omega)
  by_cases hcase : (t : Int) =
      (LatencyEncoder.mk (steps : Int)).encode (input (b * ins + i))
  · rw [if_pos hcase]
    have ht' : t =
        ((LatencyEncoder.mk (steps : Int)).encode (input (b * ins + i))).toNat := by
      omega
    have hpos : t * batch * ins + b * ins + i = latPos ins steps batch input b i := by
      unfold latPos
      rw [← ht']
    rw [hpos]
    exact hw b i hb hi
  · rw [if_neg hcase]
    have hne : ∀ b0 i0, b0 < batch → i0 < ins →
        t * batch * ins + b * ins + i ≠ latPos ins steps batch input b0 i0 := by
      intro b0 i0 hb0 hi0 hcontra
      have hq : t * batch * ins + b * ins + i =
          t * (batch * ins) + (b * ins + i) := by ring
      rw [hq, latPos_decomp] at hcontra
      obtain ⟨hK, hr⟩ := mul_add_cancel (batch * ins) _ _ _ _
        (hrlt b i hb hi) (hrlt b0 i0 hb0 hi0) hcontra
      obtain ⟨hbeq, hieq⟩ := mul_add_cancel ins b i b0 i0 hi hi0 hr
      subst hbeq
      subst hieq
      have hnn := (latency_encode_bounds steps hs (input (b * ins + i))).1
      omega
    rw [hu _ hne]
    have hlt : t * batch * ins + b * ins + i < steps * batch * ins := by
      have h1 : t * batch * ins + b * ins + i < (t + 1) * (batch * ins) := by
        have : t * batch * ins = t * (batch * ins) := by ring
        have h2 := hrlt b i hb hi
        calc t * batch * ins + b * ins + i
            = t * (batch * ins) + (b * ins + i) := by ring
        _ < t * (batch * ins) + batch * ins := by omega
        _ = (t + 1) * (batch * ins) := by ring
      calc t * batch * ins + b * ins + i < (t + 1) * (batch * ins) := h1
      _ ≤ steps * (batch * ins) := Nat.mul_le_mul_right _ (by omega)
      _ = steps * batch * ins := by ring
    rw [if_pos hlt]

/-- C6: the `LatencyEncoder` deterministically emits exactly one spike per
feature, at time `floor((1 − clamp((x+1)/2, 0, 1)) · num_steps)` capped into
`[0, num_steps−1]`, with every other time-step of that feature zero; larger
input gives an earlier (no later) spike time; with `num_steps = 10`, input
`1.0` encodes to time `0` and input `−1.0` to time `9`. -/
theorem claim_C6_latency_encoding (steps batch ins : Nat) (input buf : Nat → ℚ)
    (b i t : Nat) (x y : ℚ) (hs : 1 ≤ steps) (hb : b < batch) (hi : i < ins)
    (ht : t < steps) :
    ((LatencyEncoder.mk (steps : Int)).encode x =
        min (Int.floor ((1 - max 0 (min 1 ((x + 1) / 2))) * (steps : ℚ)))
          ((steps : Int) - 1) ∧
      0 ≤ (LatencyEncoder.mk (steps : Int)).encode x ∧
      (LatencyEncoder.mk (steps : Int)).encode x ≤ (steps : Int) - 1) ∧
    (x ≤ y → (LatencyEncoder.mk (steps : Int)).encode y ≤
        (LatencyEncoder.mk (steps : Int)).encode x) ∧
    (SpikeEncoder.encode_latency ins steps input buf batch
        (t * batch * ins + b * ins + i) =
      (if (t : Int) =
          (LatencyEncoder.mk (steps : Int)).encode (input (b * ins + i))
       then (1 : ℚ) else 0)) ∧
    ((LatencyEncoder.mk ((10 : Nat) : Int)).encode 1 = 0 ∧
     (LatencyEncoder.mk ((10 : Nat) : Int)).encode (-1) = 9) := by
  refine ⟨⟨latency_encode_eq_floor steps x, latency_encode_bounds steps hs x⟩,
    fun hxy => latency_encode_antitone steps x y hxy,
    encode_latency_spec ins steps batch input buf b i t hs hb hi ht, ?_, ?_⟩
  · norm_num [LatencyEncoder.encode, cIntOfRat]
  · norm_num [LatencyEncoder.encode, cIntOfRat]

theorem claim_C6_latency_encoding_witness :
    (1 ≤ 10 ∧ 0 < 1 ∧ 1 < 2 ∧ 3 < 10) ∧
    (((LatencyEncoder.mk ((10 : Nat) : Int)).encode (1 / 4) =
        min (Int.floor ((1 - max 0 (min 1 ((1 / 4 + 1) / 2))) * ((10 : Nat) : ℚ)))
          (((10 : Nat) : Int) - 1) ∧
      0 ≤ (LatencyEncoder.mk ((10 : Nat) : Int)).encode (1 / 4) ∧
      (LatencyEncoder.mk ((10 : Nat) : Int)).encode (1 / 4) ≤ ((10 : Nat) : Int) - 1) ∧
    ((1 : ℚ) / 4 ≤ 3 / 4 →
      (LatencyEncoder.mk ((10 : Nat) : Int)).encode (3 / 4) ≤
        (LatencyEncoder.mk ((10 : Nat) : Int)).encode (1 / 4)) ∧
    (SpikeEncoder.encode_latency 2 10 (fun k => if k = 0 then 1 else -1)
        (fun _ => 7) 1 (3 * 1 * 2 + 0 * 2 + 1) =
      (if ((3 : Nat) : Int) =
          (LatencyEncoder.mk ((10 : Nat) : Int)).encode
            ((fun k => if k = 0 then (1 : ℚ) else -1) (0 * 2 + 1))
       then (1 : ℚ) else 0)) ∧
    ((LatencyEncoder.mk ((10 : Nat) : Int)).encode 1 = 0 ∧
     (LatencyEncoder.mk ((10 : Nat) : Int)).encode (-1) = 9)) :=
  ⟨by decide,
   claim_C6_latency_encoding 10 1 2 (fun k => if k = 0 then 1 else -1)
     (fun _ => 7) 0 1 3 (1 / 4) (3 / 4) (by decide) (by decide) (by decide)
     (by decide)⟩

/-! ## Rate encoding: fresh seeded generator per call -/

theorem rate_inner_spec (u01 : Nat → Nat → ℚ) (sig : ℚ → ℚ) (ins batch : Nat)
    (input : Nat → ℚ) (t b : Nat) (st : RateEncoder × (Nat → ℚ)) :
    ∀ m,
      ((List.range m).foldl (rateStep u01 sig ins batch input t b) st).1.gain =
        st.1.gain ∧
      ((List.range m).foldl (rateStep u01 sig ins batch input t b) st).1.seed =
        st.1.seed ∧
      ((List.range m).foldl (rateStep u01 sig ins batch input t b) st).1.counter =
        st.1.counter + m ∧
      (∀ q,
        ((List.range m).foldl (rateStep u01 sig ins batch input t b) st).2 q =
          if t * batch * ins + b * ins ≤ q ∧ q < t * batch * ins + b * ins + m
          then (if u01 st.1.seed
                  (st.1.counter + (q - (t * batch * ins + b * ins))) <
                  sig (st.1.gain *
                    input (b * ins + (q - (t * batch * ins + b * ins))))
                then (1 : ℚ) else 0)
          else st.2 q) := by
  intro m
  induction m with
  | zero =>
      refine ⟨rfl, rfl, rfl, fun q => ?_⟩
      rw [if_neg (by omega)]
      rfl
  | succ m ih =>
      obtain ⟨ihg, ihs, ihc, ihq⟩ := ih
      set prev := (List.range m).foldl (rateStep u01 sig ins batch input t b) st
        with hprev
      have hfold : (List.range (m + 1)).foldl
          (rateStep u01 sig ins batch input t b) st =
          rateStep u01 sig ins batch input t b prev m := by
        rw [List.range_succ, List.foldl_append, List.foldl_cons, List.foldl_nil]
      rw [hfold]
      have hg : (rateStep u01 sig ins batch input t b prev m).1.gain =
          prev.1.gain := rfl
      have hs : (rateStep u01 sig ins batch input t b prev m).1.seed =
          prev.1.seed := rfl
      have hc : (rateStep u01 sig ins batch input t b prev m).1.counter =
          prev.1.counter + 1 := rfl
      refine ⟨hg.trans ihg, hs.trans ihs, by rw [hc, ihc]; omega, fun q => ?_⟩
      have hbuf : (rateStep u01 sig ins batch input t b prev m).2 =
          updAt prev.2 (t * batch * ins + b * ins + m)
            (if u01 prev.1.seed prev.1.counter <
                sig (prev.1.gain * input (b * ins + m))
             then (1 : ℚ) else 0) := rfl
      rw [hbuf]
      by_cases hq : q = t * batch * ins + b * ins + m
      · subst hq
        have hcond : t * batch * ins + b * ins ≤ t * batch * ins + b * ins + m ∧
            t * batch * ins + b * ins + m <
              t * batch * ins + b * ins + (m + 1) := by omega
        have hsub : t * batch * ins + b * ins + m -
            (t * batch * ins + b * ins) = m := by omega
        rw [updAt_same, if_pos hcond, hsub, ihg, ihs, ihc]
      · rw [updAt_other _ _ _ _ hq, ihq q]
        by_cases hin : t * batch * ins + b * ins ≤ q ∧
            q < t * batch * ins + b * ins + m
        · have hin' : t * batch * ins + b * ins ≤ q ∧
              q < t * batch * ins + b * ins + (m + 1) := by omega
          rw [if_pos hin, if_pos hin']
        · have hin' : ¬(t * batch * ins + b * ins ≤ q ∧
              q < t * batch * ins + b * ins + (m + 1)) := by
            intro hc2
            exact hin ⟨hc2.1, by omega⟩
          rw [if_neg hin, if_neg hin']

theorem rate_middle_spec (u01 : Nat → Nat → ℚ) (sig : ℚ → ℚ) (ins batch : Nat)
    (input : Nat → ℚ) (t : Nat) (st : RateEncoder × (Nat → ℚ)) :
    ∀ mB,
      ((List.range mB).foldl
        (fun s b => rateInner u01 sig ins batch input t b s) st).1.gain =
          st.1.gain ∧
      ((List.range mB).foldl
        (fun s b => rateInner u01 sig ins batch input t b s) st).1.seed =
          st.1.seed ∧
      ((List.range mB).foldl
        (fun s b => rateInner u01 sig ins batch input t b s) st).1.counter =
          st.1.counter + mB * ins ∧
      (∀ q,
        ((List.range mB).foldl
          (fun s b => rateInner u01 sig ins batch input t b s) st).2 q =
          if t * batch * ins ≤ q ∧ q < t * batch * ins + mB * ins
          then (if u01 st.1.seed (st.1.counter + (q - t * batch * ins)) <
                  sig (st.1.gain * input (q - t * batch * ins))
                then (1 : ℚ) else 0)
          else st.2 q) := by
  intro mB
  induction mB with
  | zero =>
      refine ⟨rfl, rfl, by simp, fun q => ?_⟩
      rw [if_neg (by omega)]
      rfl
  | succ mB ih =>
      obtain ⟨ihg, ihs, ihc, ihq⟩ := ih
      set prev := (List.range mB).foldl
        (fun s b => rateInner u01 sig ins batch input t b s) st with hprev
      have hfold : (List.range (mB + 1)).foldl
          (fun s b => rateInner u01 sig ins batch input t b s) st =
          rateInner u01 sig ins batch input t mB prev := by
        rw [List.range_succ, List.foldl_append, List.foldl_cons, List.foldl_nil]
      obtain ⟨hg, hs, hc, hbuf⟩ :=
        rate_inner_spec u01 sig ins batch input t mB prev ins
      rw [hfold]
      have hcounter : (rateInner u01 sig ins batch input t mB prev).1.counter =
          st.1.counter + (mB + 1) * ins := by
        rw [show (rateInner u01 sig ins batch input t mB prev).1.counter =
          ((List.range ins).foldl (rateStep u01 sig ins batch input t mB)
            prev).1.counter from rfl, hc, ihc]
        ring
      refine ⟨hg.trans ihg, hs.trans ihs, hcounter, fun q => ?_⟩
      rw [show (rateInner u01 sig ins batch input t mB prev).2 q =
        ((List.range ins).foldl (rateStep u01 sig ins batch input t mB)
          prev).2 q from rfl, hbuf q, ihs, ihc, ihg, ihq q]
      by_cases h1 : t * batch * ins + mB * ins ≤ q ∧
          q < t * batch * ins + mB * ins + ins
      · rw [if_pos h1]
        have htar : t * batch * ins ≤ q ∧
            q < t * batch * ins + (mB + 1) * ins := by
          have hB : (mB + 1) * ins = mB * ins + ins := by ring
          rw [hB]
          omega
        rw [if_pos htar]
        have hidx1 : st.1.counter + mB * ins +
            (q - (t * batch * ins + mB * ins)) =
            st.1.counter + (q - t * batch * ins) := by omega
        have hidx2 : mB * ins + (q - (t * batch * ins + mB * ins)) =
            q - t * batch * ins := by omega
        rw [hidx1, hidx2]
      · rw [if_neg h1]
        by_cases h2 : t * batch * ins ≤ q ∧ q < t * batch * ins + mB * ins
        · rw [if_pos h2]
          have htar : t * batch * ins ≤ q ∧
              q < t * batch * ins + (mB + 1) * ins := by
            have hB : (mB + 1) * ins = mB * ins + ins := by ring
            rw [hB]
            omega
          rw [if_pos htar]
        · rw [if_neg h2]
          have htar : ¬(t * batch * ins ≤ q ∧
              q < t * batch * ins + (mB + 1) * ins) := by
            have hB : (mB + 1) * ins = mB * ins + ins := by ring
            rw [hB]
            omega
          rw [if_neg htar]

theorem rate_outer_spec (u01 : Nat → Nat → ℚ) (sig : ℚ → ℚ) (ins batch : Nat)
    (input : Nat → ℚ) (st : RateEncoder × (Nat → ℚ)) :
    ∀ mT,
      ((List.range mT).foldl
        (fun s t => rateMiddle u01 sig ins batch input t s) st).1.gain =
          st.1.gain ∧
      ((List.range mT).foldl
        (fun s t => rateMiddle u01 sig ins batch input t s) st).1.seed =
          st.1.seed ∧
      ((List.range mT).foldl
        (fun s t => rateMiddle u01 sig ins batch input t s) st).1.counter =
          st.1.counter + mT * (batch * ins) ∧
      (∀ q,
        ((List.range mT).foldl
          (fun s t => rateMiddle u01 sig ins batch input t s) st).2 q =
          if q < mT * (batch * ins)
          then (if u01 st.1.seed (st.1.counter + q) <
                  sig (st.1.gain * input (q % (batch * ins)))
                then (1 : ℚ) else 0)
          else st.2 q) := by
  intro mT
  induction mT with
  | zero =>
      refine ⟨rfl, rfl, by simp, fun q => ?_⟩
      rw [if_neg (by omega)]
      rfl
  | succ mT ih =>
      obtain ⟨ihg, ihs, ihc, ihq⟩ := ih
      set prev := (List.range mT).foldl
        (fun s t => rateMiddle u01 sig ins batch input t s) st with hprev
      have hfold : (List.range (mT + 1)).foldl
          (fun s t => rateMiddle u01 sig ins batch input t s) st =
          rateMiddle u01 sig ins batch input mT prev := by
        rw [List.range_succ, List.foldl_append, List.foldl_cons, List.foldl_nil]
      obtain ⟨hg, hs, hc, hbuf⟩ :=
        rate_middle_spec u01 sig ins batch input mT prev batch
      rw [hfold]
      have hcounter : (rateMiddle u01 sig ins batch input mT prev).1.counter =
          st.1.counter + (mT + 1) * (batch * ins) := by
        rw [show (rateMiddle u01 sig ins batch input mT prev).1.counter =
          ((List.range batch).foldl
            (fun s b => rateInner u01 sig ins batch input mT b s)
            prev).1.counter from rfl, hc, ihc]
        ring
      refine ⟨hg.trans ihg, hs.trans ihs, hcounter, fun q => ?_⟩
      rw [show (rateMiddle u01 sig ins batch input mT prev).2 q =
        ((List.range batch).foldl
          (fun s b => rateInner u01 sig ins batch input mT b s)
          prev).2 q from rfl, hbuf q, ihs, ihc, ihg, ihq q]
      have hassoc : mT * batch * ins = mT * (batch * ins) := by ring
      rw [hassoc]
      by_cases h1 : mT * (batch * ins) ≤ q ∧
          q < mT * (batch * ins) + batch * ins
      · rw [if_pos h1]
        have htar : q < (mT + 1) * (batch * ins) := by
          have hB : (mT + 1) * (batch * ins) = mT * (batch * ins) + batch * ins := by
            ring
          rw [hB]
          omega
        rw [if_pos htar]
        have hidx1 : st.1.counter + mT * (batch * ins) +
            (q - mT * (batch * ins)) = st.1.counter + q := by omega
        have hmod : q % (batch * ins) = q - mT * (batch * ins) := by
          have h3 : mT * (batch * ins) + (q - mT * (batch * ins)) = q :=
            Nat.add_sub_cancel' h1.1
          rw [Nat.add_comm] at h3
          have hlt : q - mT * (batch * ins) < batch * ins := by omega
          conv_lhs => rw [← h3]
          rw [Nat.add_mul_mod_self_right]
          exact Nat.mod_eq_of_lt hlt
        rw [hidx1, ← hmod]
      · rw [if_neg h1]
        by_cases h2 : q < mT * (batch * ins)
        · rw [if_pos h2]
          have htar : q < (mT + 1) * (batch * ins) := by
            have hB : (mT + 1) * (batch * ins) =
                mT * (batch * ins) + batch * ins := by ring
            rw [hB]
            omega
          rw [if_pos htar]
        · rw [if_neg h2]
          have htar : ¬q < (mT + 1) * (batch * ins) := by
            have hB : (mT + 1) * (batch * ins) =
                mT * (batch * ins) + batch * ins := by ring
            rw [hB]
            omega
          rw [if_neg htar]

/-- Closed form of `encode_rate`: entry `idx` of the spike train is decided
by draw number `idx` of the stream of the freshly seeded generator
(seed `42`) against `sigmoid(10 * input)`; entries beyond the train are the
untouched caller buffer. -/
theorem encode_rate_spec (u01 : Nat → Nat → ℚ) (sig : ℚ → ℚ)
    (ins steps : Nat) (input buf : Nat → ℚ) (batch : Nat) (q : Nat) :
    SpikeEncoder.encode_rate u01 sig ins steps input buf batch q =
      (if q < steps * batch * ins
       then (if u01 42 q < sig (10 * input (q % (batch * ins)))
             then (1 : ℚ) else 0)
       else buf q) := by
  have h := (rate_outer_spec u01 sig ins batch input (⟨10, 42, 0⟩, buf)
    steps).2.2.2 q
  have hassoc : steps * (batch * ins) = steps * batch * ins := by ring
  rw [show SpikeEncoder.encode_rate u01 sig ins steps input buf batch q =
      ((List.range steps).foldl
        (fun s t => rateMiddle u01 sig ins batch input t s)
        (⟨10, 42, 0⟩, buf)).2 q from rfl, h, hassoc]
  simp

/-- C9: rate encoding through the public `SpikeEncoder::encode` interface is
deterministic across calls: each call constructs a fresh `RateEncoder` with
the fixed default seed `42` and gain `10` and stores no generator state on
the `SpikeEncoder`, so a second call on the same encoder with the same input
produces a bit-identical spike train. -/
theorem claim_C9_rate_determinism (u01 : Nat → Nat → ℚ) (sig : ℚ → ℚ)
    (ins steps : Nat) (input buf : Nat → ℚ) (batch : Nat) :
    (SpikeEncoder.encode u01 sig ⟨ins, steps, EncodingType.RATE⟩
        input buf batch).1 = ⟨ins, steps, EncodingType.RATE⟩ ∧
    (∀ idx,
      (SpikeEncoder.encode u01 sig
        (SpikeEncoder.encode u01 sig ⟨ins, steps, EncodingType.RATE⟩
          input buf batch).1
        input
        (SpikeEncoder.encode u01 sig ⟨ins, steps, EncodingType.RATE⟩
          input buf batch).2
        batch).2 idx =
      (SpikeEncoder.encode u01 sig ⟨ins, steps, EncodingType.RATE⟩
        input buf batch).2 idx) ∧
    (∀ idx,
      (SpikeEncoder.encode u01 sig ⟨ins, steps, EncodingType.RATE⟩
        input buf batch).2 idx =
        (if idx < steps * batch * ins
         then (if u01 42 idx < sig (10 * input (idx % (batch * ins)))
               then (1 : ℚ) else 0)
         else buf idx)) := by
  refine ⟨rfl, fun idx => ?_, fun idx => ?_⟩
  · rw [show (SpikeEncoder.encode u01 sig
        (SpikeEncoder.encode u01 sig ⟨ins, steps, EncodingType.RATE⟩
          input buf batch).1
        input
        (SpikeEncoder.encode u01 sig ⟨ins, steps, EncodingType.RATE⟩
          input buf batch).2
        batch).2 idx =
      SpikeEncoder.encode_rate u01 sig ins steps input
        (SpikeEncoder.encode_rate u01 sig ins steps input buf batch)
        batch idx from rfl]
    rw [show (SpikeEncoder.encode u01 sig ⟨ins, steps, EncodingType.RATE⟩
        input buf batch).2 idx =
      SpikeEncoder.encode_rate u01 sig ins steps input buf batch idx from rfl]
    rw [encode_rate_spec u01 sig ins steps input
      (SpikeEncoder.encode_rate u01 sig ins steps input buf batch) batch idx]
    by_cases hlt : idx < steps * batch * ins
    · rw [encode_rate_spec u01 sig ins steps input buf batch idx,
        if_pos hlt, if_pos hlt]
    · rw [if_neg hlt]
  · rw [show (SpikeEncoder.encode u01 sig ⟨ins, steps, EncodingType.RATE⟩
        input buf batch).2 idx =
      SpikeEncoder.encode_rate u01 sig ins steps input buf batch idx from rfl]
    exact encode_rate_spec u01 sig ins steps input buf batch idx

/-! ## RingBuffer (`audiogen-lite/src/main/cpp/ring_buffer.cpp`)

The sample array is modelled as a total function `Nat → ℚ` (the code only
touches indices below `capacity_`); the two atomic cursors as plain naturals
(the claims are about sequential histories, where the acquire/release loads
are plain reads). -/

structure RingBuffer where
  capacity : Nat
  buffer : Nat → ℚ
  write_pos : Nat
  read_pos : Nat

/-- The constructor: `capacity_ = capacity + 1` (the sentinel slot that keeps
`write_pos == read_pos` unambiguously "empty"), zero-filled array, both
cursors at `0`. -/
def mkRingBuffer (capacity : Nat) : RingBuffer :=
  ⟨capacity + 1, fun _ => 0, 0, 0⟩

/-- `RingBuffer::available()`. -/
def RingBuffer.available (rb : RingBuffer) : Nat :=
  if rb.write_pos ≥ rb.read_pos then rb.write_pos - rb.read_pos
  else rb.capacity - (rb.read_pos - rb.write_pos)

/-- `RingBuffer::remaining()`. -/
def RingBuffer.remaining (rb : RingBuffer) : Nat :=
  rb.capacity - rb.available - 1

/-- `memcpy(dst + start, src, len)` on a modelled array: indices
`[start, start + len)` take `src`'s first `len` entries, everything else is
unchanged. -/
def copyRegion (dst src : Nat → ℚ) (start len : Nat) : Nat → ℚ :=
  fun j => if start ≤ j ∧ j < start + len then src (j - start) else dst j

theorem copyRegion_in (dst src : Nat → ℚ) (start len j : Nat)
    (h1 : start ≤ j) (h2 : j < start + len) :
    copyRegion dst src start len j = src (j - start) := by
  simp [copyRegion, h1, h2]

theorem copyRegion_out (dst src : Nat → ℚ) (start len j : Nat)
    (h : ¬(start ≤ j ∧ j < start + len)) :
    copyRegion dst src start len j = dst j := by
  simp only [copyRegion, if_neg h]

/-- `RingBuffer::write(data, count)`: compute the free space from the two
cursors, truncate `count` to it, copy in at most two contiguous chunks
(`memcpy(buffer_ + write_pos, data, first_chunk)` then
`memcpy(buffer_, data + first_chunk, count - first_chunk)`), publish the
advanced write cursor, and return the number of samples written. -/
def RingBuffer.write (rb : RingBuffer) (data : Nat → ℚ) (count0 : Nat) :
    RingBuffer × Nat :=
  let write_pos := rb.write_pos
  let read_pos := rb.read_pos
  let space := if write_pos ≥ read_pos
    then rb.capacity - (write_pos - read_pos) - 1
    else read_pos - write_pos - 1
  let count := min count0 space
  if count = 0 then (rb, 0)
  else
    let first_chunk := min count (rb.capacity - write_pos)
    let buf1 := copyRegion rb.buffer data write_pos first_chunk
    let buf2 := copyRegion buf1 (fun k => data (first_chunk + k)) 0
      (count - first_chunk)
    ({ rb with buffer := buf2, write_pos := (write_pos + count) % rb.capacity },
     count)

/-- `RingBuffer::read(data, count)`: compute the available data from the two
cursors, truncate `count` to it, copy out at most two contiguous chunks, and
publish the advanced read cursor. The copied-out samples are returned as a
list (the contents of the caller's `data` buffer). -/
def RingBuffer.read (rb : RingBuffer) (count0 : Nat) :
    RingBuffer × List ℚ :=
  let read_pos := rb.read_pos
  let write_pos := rb.write_pos
  let avail := if write_pos ≥ read_pos then write_pos - read_pos
    else rb.capacity - (read_pos - write_pos)
  let count := min count0 avail
  if count = 0 then (rb, [])
  else
    let first_chunk := min count (rb.capacity - read_pos)
    let out := (List.range first_chunk).map (fun k => rb.buffer (read_pos + k)) ++
      (List.range (count - first_chunk)).map (fun k => rb.buffer k)
    ({ rb with read_pos := (read_pos + count) % rb.capacity }, out)

/-- `RingBuffer::clear()`: advance the read cursor to the write cursor. -/
def RingBuffer.clear (rb : RingBuffer) : RingBuffer :=
  { rb with read_pos := rb.write_pos }

/-- Abstraction function: the unread samples in FIFO order. -/
def RingBuffer.contents (rb : RingBuffer) : List ℚ :=
  (List.range rb.available).map
    (fun k => rb.buffer ((rb.read_pos + k) % rb.capacity))

/-- The state invariant of every reachable ring buffer: positive physical
capacity and both cursors strictly inside the array. -/
def RingBuffer.Inv (rb : RingBuffer) : Prop :=
  0 < rb.capacity ∧ rb.write_pos < rb.capacity ∧ rb.read_pos < rb.capacity

theorem mkRingBuffer_inv (n : Nat) : (mkRingBuffer n).Inv :=
  ⟨Nat.succ_pos n, Nat.succ_pos n, Nat.succ_pos n⟩

theorem contents_length (rb : RingBuffer) :
    rb.contents.length = rb.available := by
  simp [RingBuffer.contents]

theorem avail_lt (rb : RingBuffer) (hinv : rb.Inv) :
    rb.available < rb.capacity := by
  obtain ⟨h1, h2, h3⟩ := hinv
  unfold RingBuffer.available
  split <;> omega

theorem wp_eq_phys (rb : RingBuffer) (hinv : rb.Inv) :
    rb.write_pos = (rb.read_pos + rb.available) % rb.capacity := by
  obtain ⟨h1, h2, h3⟩ := hinv
  unfold RingBuffer.available
  split
  · rename_i hge
    have he : rb.read_pos + (rb.write_pos - rb.read_pos) = rb.write_pos := by
      omega
    rw [he, Nat.mod_eq_of_lt h2]
  · rename_i hlt
    have he : rb.read_pos + (rb.capacity - (rb.read_pos - rb.write_pos)) =
        rb.capacity + rb.write_pos := by omega
    rw [he, Nat.add_mod_left, Nat.mod_eq_of_lt h2]

theorem phys_inj (cap r a b : Nat) (ha : a < cap) (hb : b < cap)
    (h : (r + a) % cap = (r + b) % cap) : a = b := by
  have h1 : a ≡ b [MOD cap] := Nat.ModEq.add_left_cancel' r h
  have h2 : a % cap = b % cap := h1
  rw [Nat.mod_eq_of_lt ha, Nat.mod_eq_of_lt hb] at h2
  exact h2

theorem avail_of_phys (cap rp m : Nat) (hrp : rp < cap)
    (hm : m < cap) :
    (if (rp + m) % cap ≥ rp then (rp + m) % cap - rp
     else cap - (rp - (rp + m) % cap)) = m := by
  by_cases hlt : rp + m < cap
  · rw [Nat.mod_eq_of_lt hlt]
    rw [if_pos (by omega)]
    omega
  · have h2 : (rp + m) % cap = rp + m - cap := by
      rw [Nat.mod_eq_sub_mod (by omega), Nat.mod_eq_of_lt (by omega)]
    rw [h2]
    have hcond : ¬(rp + m - cap ≥ rp) := by omega
    rw [if_neg hcond]
    omega

/-- Full specification of `RingBuffer::write` at an invariant state: it
returns `min count remaining`, appends exactly those samples to the unread
contents (overwriting nothing that was unread), advances only the write
cursor, and preserves the invariant. -/
theorem write_spec (rb : RingBuffer) (d : Nat → ℚ) (c : Nat) (hinv : rb.Inv) :
    (rb.write d c).2 = min c rb.remaining ∧
    (rb.write d c).1.capacity = rb.capacity ∧
    (rb.write d c).1.read_pos = rb.read_pos ∧
    (rb.write d c).1.Inv ∧
    (rb.write d c).1.available = rb.available + min c rb.remaining ∧
    (rb.write d c).1.contents =
      rb.contents ++ (List.range (min c rb.remaining)).map d := by
  obtain ⟨hcap, hwp, hrp⟩ := hinv
  have havlt : rb.available < rb.capacity := avail_lt rb ⟨hcap, hwp, hrp⟩
  have hrem : rb.remaining = rb.capacity - rb.available - 1 := rfl
  have hspace : (if rb.write_pos ≥ rb.read_pos
      then rb.capacity - (rb.write_pos - rb.read_pos) - 1
      else rb.read_pos - rb.write_pos - 1) = rb.remaining := by
    unfold RingBuffer.remaining RingBuffer.available
    split <;> omega
  by_cases hzero : min c rb.remaining = 0
  · have hw : rb.write d c = (rb, 0) := by
      simp only [RingBuffer.write]
      rw [hspace, if_pos hzero]
    rw [hw, hzero]
    refine ⟨rfl, rfl, rfl, ⟨hcap, hwp, hrp⟩, ?_, ?_⟩
    · show rb.available = rb.available + 0
      omega
    · show rb.contents = rb.contents ++ (List.range 0).map d
      simp
  · set cnt := min c rb.remaining with hcnt
    have hcntrem : cnt ≤ rb.remaining := min_le_right _ _
    have hcnt_le : cnt ≤ rb.capacity - 1 - rb.available := by omega
    have hw : rb.write d c =
        ({ rb with
            buffer := copyRegion
              (copyRegion rb.buffer d rb.write_pos
                (min cnt (rb.capacity - rb.write_pos)))
              (fun k => d (min cnt (rb.capacity - rb.write_pos) + k)) 0
              (cnt - min cnt (rb.capacity - rb.write_pos)),
            write_pos := (rb.write_pos + cnt) % rb.capacity }, cnt) := by
      simp only [RingBuffer.write]
      rw [hspace, ← hcnt, if_neg hzero]
    have hret : (rb.write d c).2 = cnt := by rw [hw]
    have hcap' : (rb.write d c).1.capacity = rb.capacity := by rw [hw]
    have hrp' : (rb.write d c).1.read_pos = rb.read_pos := by rw [hw]
    have hwp' : (rb.write d c).1.write_pos =
        (rb.write_pos + cnt) % rb.capacity := by rw [hw]
    have hbuf : (rb.write d c).1.buffer = copyRegion
        (copyRegion rb.buffer d rb.write_pos
          (min cnt (rb.capacity - rb.write_pos)))
        (fun k => d (min cnt (rb.capacity - rb.write_pos) + k)) 0
        (cnt - min cnt (rb.capacity - rb.write_pos)) := by rw [hw]
    set nb := copyRegion
      (copyRegion rb.buffer d rb.write_pos
        (min cnt (rb.capacity - rb.write_pos)))
      (fun k => d (min cnt (rb.capacity - rb.write_pos) + k)) 0
      (cnt - min cnt (rb.capacity - rb.write_pos)) with hnb
    have hL1 : ∀ j, j < cnt → nb ((rb.write_pos + j) % rb.capacity) = d j := by
      intro j hj
      by_cases hjf : j < min cnt (rb.capacity - rb.write_pos)
      · have hjlt : rb.write_pos + j < rb.capacity := by omega
        have hc2 : ¬((0 : Nat) ≤ rb.write_pos + j ∧ rb.write_pos + j <
            0 + (cnt - min cnt (rb.capacity - rb.write_pos))) := by omega
        have hin1 : rb.write_pos ≤ rb.write_pos + j := Nat.le_add_right _ _
        have hin2 : rb.write_pos + j <
            rb.write_pos + min cnt (rb.capacity - rb.write_pos) := by omega
        rw [Nat.mod_eq_of_lt hjlt, hnb]
        rw [copyRegion_out _ _ _ _ _ hc2]
        rw [copyRegion_in _ _ _ _ _ hin1 hin2]
        rw [show rb.write_pos + j - rb.write_pos = j from by omega]
      · have hge : rb.capacity ≤ rb.write_pos + j := by omega
        have hlt2 : rb.write_pos + j - rb.capacity < rb.capacity := by omega
        have hc1 : (0 : Nat) ≤ rb.write_pos + j - rb.capacity := Nat.zero_le _
        have hc2 : rb.write_pos + j - rb.capacity <
            0 + (cnt - min cnt (rb.capacity - rb.write_pos)) := by omega
        rw [show (rb.write_pos + j) % rb.capacity =
            rb.write_pos + j - rb.capacity from by
          rw [Nat.mod_eq_sub_mod hge, Nat.mod_eq_of_lt hlt2], hnb]
        rw [copyRegion_in _ _ _ _ _ hc1 hc2]
        show d (min cnt (rb.capacity - rb.write_pos) +
          (rb.write_pos + j - rb.capacity - 0)) = d j
        rw [show min cnt (rb.capacity - rb.write_pos) +
          (rb.write_pos + j - rb.capacity - 0) = j from by omega]
    have hkey : ∀ a, a < rb.available → ∀ x, x < cnt →
        (rb.write_pos + x) % rb.capacity ≠
          (rb.read_pos + a) % rb.capacity := by
      intro a ha x hx hcontra
      have h1 : (rb.read_pos + (rb.available + x)) % rb.capacity =
          (rb.read_pos + a) % rb.capacity := by
        rw [← Nat.add_assoc, ← Nat.mod_add_mod,
          ← wp_eq_phys rb ⟨hcap, hwp, hrp⟩]
        exact hcontra
      have h2 := phys_inj rb.capacity rb.read_pos (rb.available + x) a
        (by omega) (by omega) h1
      omega
    have hL2 : ∀ a, a < rb.available →
        nb ((rb.read_pos + a) % rb.capacity) =
          rb.buffer ((rb.read_pos + a) % rb.capacity) := by
      intro a ha
      have hpa : (rb.read_pos + a) % rb.capacity < rb.capacity :=
        Nat.mod_lt _ hcap
      have hno2 : ¬((0 : Nat) ≤ (rb.read_pos + a) % rb.capacity ∧
          (rb.read_pos + a) % rb.capacity <
            0 + (cnt - min cnt (rb.capacity - rb.write_pos))) := by
        rintro ⟨-, hp2⟩
        have hx : min cnt (rb.capacity - rb.write_pos) +
            (rb.read_pos + a) % rb.capacity < cnt := by omega
        apply hkey a ha _ hx
        have he : rb.write_pos + (min cnt (rb.capacity - rb.write_pos) +
            (rb.read_pos + a) % rb.capacity) =
            rb.capacity + (rb.read_pos + a) % rb.capacity := by omega
        rw [he, Nat.add_mod_left, Nat.mod_eq_of_lt hpa]
      have hno1 : ¬(rb.write_pos ≤ (rb.read_pos + a) % rb.capacity ∧
          (rb.read_pos + a) % rb.capacity <
            rb.write_pos + min cnt (rb.capacity - rb.write_pos)) := by
        rintro ⟨hp1, hp2⟩
        apply hkey a ha ((rb.read_pos + a) % rb.capacity - rb.write_pos)
          (by omega)
        have he : rb.write_pos +
            ((rb.read_pos + a) % rb.capacity - rb.write_pos) =
            (rb.read_pos + a) % rb.capacity := by omega
        rw [he, Nat.mod_eq_of_lt hpa]
      rw [hnb, copyRegion_out _ _ _ _ _ hno2, copyRegion_out _ _ _ _ _ hno1]
    have hwpc : (rb.write_pos + cnt) % rb.capacity =
        (rb.read_pos + (rb.available + cnt)) % rb.capacity := by
      conv_lhs => rw [wp_eq_phys rb ⟨hcap, hwp, hrp⟩]
      rw [Nat.mod_add_mod, Nat.add_assoc]
    have havail' : (rb.write d c).1.available = rb.available + cnt := by
      rw [show (rb.write d c).1.available =
        (if (rb.write d c).1.write_pos ≥ (rb.write d c).1.read_pos
         then (rb.write d c).1.write_pos - (rb.write d c).1.read_pos
         else (rb.write d c).1.capacity -
           ((rb.write d c).1.read_pos - (rb.write d c).1.write_pos))
        from rfl, hwp', hrp', hcap', hwpc]
      exact avail_of_phys rb.capacity rb.read_pos (rb.available + cnt) hrp
        (by omega)
    have hInv : (rb.write d c).1.Inv := by
      refine ⟨?_, ?_, ?_⟩
      · rw [hcap']; exact hcap
      · rw [hwp', hcap']; exact Nat.mod_lt _ hcap
      · rw [hrp', hcap']; exact hrp
    have hcont : (rb.write d c).1.contents =
        rb.contents ++ (List.range cnt).map d := by
      rw [show (rb.write d c).1.contents =
        (List.range ((rb.write d c).1.available)).map
          (fun k => (rb.write d c).1.buffer
            (((rb.write d c).1.read_pos + k) % (rb.write d c).1.capacity))
        from rfl, havail', hbuf, hrp', hcap', List.range_add,
        List.map_append, List.map_map]
      congr 1
      · rw [show rb.contents = (List.range rb.available).map
          (fun k => rb.buffer ((rb.read_pos + k) % rb.capacity)) from rfl]
        apply List.map_congr_left
        intro k hk
        rw [List.mem_range] at hk
        exact hL2 k hk
      · apply List.map_congr_left
        intro j hj
        rw [List.mem_range] at hj
        show nb ((rb.read_pos + (rb.available + j)) % rb.capacity) = d j
        have hstep : (rb.read_pos + (rb.available + j)) % rb.capacity =
            (rb.write_pos + j) % rb.capacity := by
          rw [← Nat.add_assoc, ← Nat.mod_add_mod,
            ← wp_eq_phys rb ⟨hcap, hwp, hrp⟩]
        rw [hstep]
        exact hL1 j hj
    exact ⟨hret, hcap', hrp', hInv, havail', hcont⟩

/-- Full specification of `RingBuffer::read` at an invariant state: it
copies out exactly the first `min count available` unread samples in FIFO
order (splitting across the wrap in two chunks), removes them from the
contents, advances only the read cursor, and preserves the invariant. -/
theorem read_spec (rb : RingBuffer) (c : Nat) (hinv : rb.Inv) :
    (rb.read c).2 = rb.contents.take c ∧
    (rb.read c).2.length = min c rb.available ∧
    (rb.read c).1.capacity = rb.capacity ∧
    (rb.read c).1.write_pos = rb.write_pos ∧
    (rb.read c).1.buffer = rb.buffer ∧
    (rb.read c).1.Inv ∧
    (rb.read c).1.available = rb.available - min c rb.available ∧
    (rb.read c).1.contents = rb.contents.drop (min c rb.available) := by
  obtain ⟨hcap, hwp, hrp⟩ := hinv
  have havlt : rb.available < rb.capacity := avail_lt rb ⟨hcap, hwp, hrp⟩
  have hlen : rb.contents.length = rb.available := contents_length rb
  have havail_eq : (if rb.write_pos ≥ rb.read_pos
      then rb.write_pos - rb.read_pos
      else rb.capacity - (rb.read_pos - rb.write_pos)) = rb.available := rfl
  by_cases hzero : min c rb.available = 0
  · have hr : rb.read c = (rb, []) := by
      simp only [RingBuffer.read]
      rw [havail_eq, if_pos hzero]
    rw [hr]
    have htake : rb.contents.take c = [] := by
      rcases (show c = 0 ∨ rb.available = 0 from by omega) with h | h
      · rw [h, List.take_zero]
      · have hnil : rb.contents = [] :=
          List.eq_nil_of_length_eq_zero (by rw [hlen, h])
        rw [hnil, List.take_nil]
    refine ⟨htake.symm, ?_, rfl, rfl, rfl, ⟨hcap, hwp, hrp⟩, ?_, ?_⟩
    · show ([] : List ℚ).length = min c rb.available
      rw [hzero]
      rfl
    · show rb.available = rb.available - min c rb.available
      omega
    · show rb.contents = rb.contents.drop (min c rb.available)
      rw [hzero, List.drop_zero]
  · set cnt := min c rb.available with hcnt
    have hcle : cnt ≤ rb.available := min_le_right _ _
    have hr : rb.read c =
        ({ rb with read_pos := (rb.read_pos + cnt) % rb.capacity },
         (List.range (min cnt (rb.capacity - rb.read_pos))).map
            (fun k => rb.buffer (rb.read_pos + k)) ++
         (List.range (cnt - min cnt (rb.capacity - rb.read_pos))).map
            (fun k => rb.buffer k)) := by
      simp only [RingBuffer.read]
      rw [havail_eq, ← hcnt, if_neg hzero]
    have hread' : (rb.read c).1.read_pos =
        (rb.read_pos + cnt) % rb.capacity := by rw [hr]
    have hcap' : (rb.read c).1.capacity = rb.capacity := by rw [hr]
    have hwp' : (rb.read c).1.write_pos = rb.write_pos := by rw [hr]
    have hbuf' : (rb.read c).1.buffer = rb.buffer := by rw [hr]
    have houtval : (rb.read c).2 = rb.contents.take c := by
      rw [show (rb.read c).2 =
        (List.range (min cnt (rb.capacity - rb.read_pos))).map
            (fun k => rb.buffer (rb.read_pos + k)) ++
         (List.range (cnt - min cnt (rb.capacity - rb.read_pos))).map
            (fun k => rb.buffer k) from by rw [hr]]
      apply List.ext_getElem
      · simp only [List.length_append, List.length_map, List.length_range,
          List.length_take]
        omega
      · intro i h1 h2
        have hi : i < cnt := by
          simp only [List.length_append, List.length_map,
            List.length_range] at h1
          omega
        rw [List.getElem_take, List.getElem_append]
        split
        · rename_i hlt
          simp only [List.length_map, List.length_range] at hlt
          have hrpi : rb.read_pos + i < rb.capacity := by omega
          simp only [RingBuffer.contents, List.getElem_map, List.getElem_range]
          rw [Nat.mod_eq_of_lt hrpi]
        · rename_i hge
          simp only [List.length_map, List.length_range] at hge
          have hge' : min cnt (rb.capacity - rb.read_pos) ≤ i :=
            Nat.le_of_not_lt hge
          have hgecap : rb.capacity ≤ rb.read_pos + i := by omega
          have hmod : (rb.read_pos + i) % rb.capacity =
              rb.read_pos + i - rb.capacity := by
            rw [Nat.mod_eq_sub_mod hgecap, Nat.mod_eq_of_lt (by omega)]
          simp only [RingBuffer.contents, List.getElem_map, List.getElem_range,
            List.length_map, List.length_range]
          rw [hmod, show rb.read_pos + i - rb.capacity =
            i - min cnt (rb.capacity - rb.read_pos) from by omega]
    have hlen2 : (rb.read c).2.length = cnt := by
      rw [houtval]
      simp only [List.length_take]
      omega
    have hrpc : (rb.read_pos + cnt) % rb.capacity < rb.capacity :=
      Nat.mod_lt _ hcap
    have hwpphys : rb.write_pos =
        ((rb.read_pos + cnt) % rb.capacity + (rb.available - cnt)) %
          rb.capacity := by
      rw [Nat.mod_add_mod,
        show rb.read_pos + cnt + (rb.available - cnt) =
          rb.read_pos + rb.available from by omega,
        ← wp_eq_phys rb ⟨hcap, hwp, hrp⟩]
    have havail' : (rb.read c).1.available = rb.available - cnt := by
      rw [show (rb.read c).1.available =
        (if (rb.read c).1.write_pos ≥ (rb.read c).1.read_pos
         then (rb.read c).1.write_pos - (rb.read c).1.read_pos
         else (rb.read c).1.capacity -
           ((rb.read c).1.read_pos - (rb.read c).1.write_pos)) from rfl,
        hwp', hread', hcap', hwpphys]
      exact avail_of_phys rb.capacity ((rb.read_pos + cnt) % rb.capacity)
        (rb.available - cnt) hrpc (by omega)
    have hInv : (rb.read c).1.Inv := by
      refine ⟨?_, ?_, ?_⟩
      · rw [hcap']; exact hcap
      · rw [hwp', hcap']; exact hwp
      · rw [hread', hcap']; exact hrpc
    have hcont' : (rb.read c).1.contents = rb.contents.drop cnt := by
      rw [show (rb.read c).1.contents =
        (List.range ((rb.read c).1.available)).map
          (fun k => (rb.read c).1.buffer
            (((rb.read c).1.read_pos + k) % (rb.read c).1.capacity))
        from rfl, havail', hbuf', hread', hcap']
      apply List.ext_getElem
      · simp only [List.length_map, List.length_range, List.length_drop,
          contents_length]
      · intro i h1 h2
        rw [List.getElem_drop]
        simp only [RingBuffer.contents, List.getElem_map, List.getElem_range]
        rw [Nat.mod_add_mod, Nat.add_assoc]
    exact ⟨houtval, hlen2, hcap', hwp', hbuf', hInv, havail', hcont'⟩

theorem clear_spec (rb : RingBuffer) (hinv : rb.Inv) :
    rb.clear.capacity = rb.capacity ∧
    rb.clear.available = 0 ∧
    rb.clear.contents = [] ∧
    rb.clear.Inv := by
  obtain ⟨hcap, hwp, hrp⟩ := hinv
  have hav : rb.clear.available = 0 := by
    show (if rb.write_pos ≥ rb.write_pos then rb.write_pos - rb.write_pos
      else rb.capacity - (rb.write_pos - rb.write_pos)) = 0
    rw [if_pos (le_refl _)]
    omega
  refine ⟨rfl, hav, ?_, ⟨hcap, hwp, hwp⟩⟩
  show (List.range rb.clear.available).map _ = []
  rw [hav]
  rfl

/-- A sequential API call against the buffer: `write` with a caller buffer
holding `data` (count = its length), `read` with a count, or `clear`. -/
inductive RBOp
  | wr : List ℚ → RBOp
  | rd : Nat → RBOp
  | cl : RBOp
deriving DecidableEq

def RingBuffer.step (rb : RingBuffer) : RBOp → RingBuffer
  | RBOp.wr data => (rb.write (fun k => data.getD k 0) data.length).1
  | RBOp.rd c => (rb.read c).1
  | RBOp.cl => rb.clear

/-- A sequential history of calls starting from the given state. -/
def RingBuffer.run (rb : RingBuffer) (ops : List RBOp) : RingBuffer :=
  ops.foldl RingBuffer.step rb

/-- The samples actually accepted by the writes along a history, in order. -/
def writtenLog (rb : RingBuffer) : List RBOp → List ℚ
  | [] => []
  | op :: ops =>
    (match op with
     | RBOp.wr data =>
        data.take (rb.write (fun k => data.getD k 0) data.length).2
     | _ => []) ++ writtenLog (rb.step op) ops

/-- The samples returned by the reads along a history, in order. -/
def readLog (rb : RingBuffer) : List RBOp → List ℚ
  | [] => []
  | op :: ops =>
    (match op with
     | RBOp.rd c => (rb.read c).2
     | _ => []) ++ readLog (rb.step op) ops

theorem step_inv (rb : RingBuffer) (op : RBOp) (hinv : rb.Inv) :
    (rb.step op).Inv ∧ (rb.step op).capacity = rb.capacity := by
  cases op with
  | wr data =>
      exact ⟨(write_spec rb _ data.length hinv).2.2.2.1,
        (write_spec rb _ data.length hinv).2.1⟩
  | rd c =>
      exact ⟨(read_spec rb c hinv).2.2.2.2.2.1, (read_spec rb c hinv).2.2.1⟩
  | cl => exact ⟨(clear_spec rb hinv).2.2.2, (clear_spec rb hinv).1⟩

theorem run_inv (ops : List RBOp) : ∀ rb : RingBuffer, rb.Inv →
    (rb.run ops).Inv ∧ (rb.run ops).capacity = rb.capacity := by
  induction ops with
  | nil => exact fun rb h => ⟨h, rfl⟩
  | cons op ops ih =>
      intro rb h
      have h1 := step_inv rb op h
      have h2 := ih (rb.step op) h1.1
      exact ⟨h2.1, h2.2.trans h1.2⟩

theorem getD_range_take (data : List ℚ) (m : Nat) (hm : m ≤ data.length) :
    (List.range m).map (fun k => data.getD k 0) = data.take m := by
  apply List.ext_getElem
  · simp
    omega
  · intro i h1 h2
    simp only [List.getElem_map, List.getElem_range]
    rw [List.getElem_take, List.getD_eq_getElem data 0 (by simp at h1; omega)]

theorem take_append_drop_min (c : Nat) (l : List ℚ) :
    l.take c ++ l.drop (min c l.length) = l := by
  rcases le_or_lt c l.length with h | h
  · rw [min_eq_left h, List.take_append_drop]
  · rw [min_eq_right (le_of_lt h), List.drop_length, List.append_nil,
      List.take_of_length_le (le_of_lt h)]

/-- The central FIFO invariant of a sequential write/read history: the
samples read so far, followed by the unread contents, are exactly the
samples accepted by the writes so far. -/
theorem log_fifo (ops : List RBOp) : ∀ rb : RingBuffer, rb.Inv →
    (∀ op ∈ ops, op ≠ RBOp.cl) →
    readLog rb ops ++ (rb.run ops).contents =
      rb.contents ++ writtenLog rb ops := by
  induction ops with
  | nil =>
      intro rb _ _
      show [] ++ rb.contents = rb.contents ++ []
      rw [List.nil_append, List.append_nil]
  | cons op ops ih =>
      intro rb hinv hops
      have hop := hops op (List.mem_cons_self op ops)
      have hinv' := (step_inv rb op hinv).1
      have htail : ∀ o ∈ ops, o ≠ RBOp.cl :=
        fun o ho => hops o (List.mem_cons_of_mem op ho)
      cases op with
      | cl => exact absurd rfl hop
      | wr data =>
          have hws := write_spec rb (fun k => data.getD k 0) data.length hinv
          have ihh := ih (rb.step (RBOp.wr data)) hinv' htail
          rw [show readLog rb (RBOp.wr data :: ops) =
              readLog (rb.step (RBOp.wr data)) ops from rfl,
            show writtenLog rb (RBOp.wr data :: ops) =
              data.take (rb.write (fun k => data.getD k 0) data.length).2 ++
                writtenLog (rb.step (RBOp.wr data)) ops from rfl,
            show rb.run (RBOp.wr data :: ops) =
              (rb.step (RBOp.wr data)).run ops from rfl, ihh]
          have hcontents : (rb.step (RBOp.wr data)).contents =
              rb.contents ++ data.take
                (rb.write (fun k => data.getD k 0) data.length).2 := by
            rw [show (rb.step (RBOp.wr data)).contents =
              (rb.write (fun k => data.getD k 0) data.length).1.contents
              from rfl, hws.2.2.2.2.2, hws.1]
            congr 1
            exact getD_range_take data _ (min_le_left _ _)
          rw [hcontents, List.append_assoc]
      | rd c =>
          have hrs := read_spec rb c hinv
          have ihh := ih (rb.step (RBOp.rd c)) hinv' htail
          rw [show readLog rb (RBOp.rd c :: ops) =
              (rb.read c).2 ++ readLog (rb.step (RBOp.rd c)) ops from rfl,
            show writtenLog rb (RBOp.rd c :: ops) =
              writtenLog (rb.step (RBOp.rd c)) ops from rfl,
            show rb.run (RBOp.rd c :: ops) =
              (rb.step (RBOp.rd c)).run ops from rfl,
            List.append_assoc, ihh, hrs.1,
            show (rb.step (RBOp.rd c)).contents =
              rb.contents.drop (min c rb.available) from
                hrs.2.2.2.2.2.2.2, ← List.append_assoc]
          have htd := take_append_drop_min c rb.contents
          rw [contents_length] at htd
          rw [htd]

/-- C2: along every sequential history of `write`/`read` calls, `write`
copies and returns exactly `min(count, remaining())` samples and appends
exactly those to the unread contents (never overwriting unread data,
including across the wrap); `read` copies and returns exactly
`min(count, available())` samples, namely the oldest unread ones in FIFO
order; and the full sequence of samples read is a prefix of the
concatenation of the written sequences. -/
theorem claim_C2_ring_buffer_fifo (n : Nat) (ops : List RBOp) (d : Nat → ℚ)
    (c : Nat) (hops : ∀ op ∈ ops, op ≠ RBOp.cl) :
    let st := (mkRingBuffer n).run ops
    ((st.write d c).2 = min c st.remaining) ∧
    ((st.write d c).1.contents =
      st.contents ++ (List.range (min c st.remaining)).map d) ∧
    ((st.read c).2 = st.contents.take c) ∧
    ((st.read c).2.length = min c st.available) ∧
    (readLog (mkRingBuffer n) ops ++ st.contents =
      writtenLog (mkRingBuffer n) ops) ∧
    (∃ t, writtenLog (mkRingBuffer n) ops =
      readLog (mkRingBuffer n) ops ++ t) := by
  intro st
  have hinv : st.Inv := (run_inv ops (mkRingBuffer n) (mkRingBuffer_inv n)).1
  have hws := write_spec st d c hinv
  have hrs := read_spec st c hinv
  have hlog := log_fifo ops (mkRingBuffer n) (mkRingBuffer_inv n) hops
  have hmkc : (mkRingBuffer n).contents = [] := rfl
  rw [hmkc, List.nil_append] at hlog
  exact ⟨hws.1, hws.2.2.2.2.2, hrs.1, hrs.2.1, hlog,
    ⟨st.contents, hlog.symm⟩⟩

theorem claim_C2_ring_buffer_fifo_witness :
    (∀ op ∈ [RBOp.wr [1, 2, 3, 4], RBOp.wr [9], RBOp.rd 2, RBOp.wr [5, 6],
        RBOp.rd 4], op ≠ RBOp.cl) ∧
    (let st := (mkRingBuffer 4).run [RBOp.wr [1, 2, 3, 4], RBOp.wr [9],
      RBOp.rd 2, RBOp.wr [5, 6], RBOp.rd 4]
    ((st.write (fun _ => 0) 0).2 = min 0 st.remaining) ∧
    ((st.write (fun _ => 0) 0).1.contents =
      st.contents ++ (List.range (min 0 st.remaining)).map (fun _ => 0)) ∧
    ((st.read 0).2 = st.contents.take 0) ∧
    ((st.read 0).2.length = min 0 st.available) ∧
    (readLog (mkRingBuffer 4) [RBOp.wr [1, 2, 3, 4], RBOp.wr [9], RBOp.rd 2,
        RBOp.wr [5, 6], RBOp.rd 4] ++ st.contents =
      writtenLog (mkRingBuffer 4) [RBOp.wr [1, 2, 3, 4], RBOp.wr [9],
        RBOp.rd 2, RBOp.wr [5, 6], RBOp.rd 4]) ∧
    (∃ t, writtenLog (mkRingBuffer 4) [RBOp.wr [1, 2, 3, 4], RBOp.wr [9],
        RBOp.rd 2, RBOp.wr [5, 6], RBOp.rd 4] =
      readLog (mkRingBuffer 4) [RBOp.wr [1, 2, 3, 4], RBOp.wr [9],
        RBOp.rd 2, RBOp.wr [5, 6], RBOp.rd 4] ++ t)) :=
  ⟨by decide,
   claim_C2_ring_buffer_fifo 4 [RBOp.wr [1, 2, 3, 4], RBOp.wr [9], RBOp.rd 2,
     RBOp.wr [5, 6], RBOp.rd 4] (fun _ => 0) 0 (by decide)⟩

/-- C3: the physical array of a ring buffer built with requested capacity
`n` has `n + 1` slots, and at every state reachable by `write`/`read`/`clear`
histories, `available() + remaining() = physical_capacity − 1 = n`. -/
theorem claim_C3_ring_buffer_capacity (n : Nat) (ops : List RBOp) :
    (mkRingBuffer n).capacity = n + 1 ∧
    ((mkRingBuffer n).run ops).available +
        ((mkRingBuffer n).run ops).remaining =
      ((mkRingBuffer n).run ops).capacity - 1 ∧
    ((mkRingBuffer n).run ops).capacity - 1 = n := by
  have h := run_inv ops (mkRingBuffer n) (mkRingBuffer_inv n)
  have havlt := avail_lt _ h.1
  refine ⟨rfl, ?_, ?_⟩
  · show ((mkRingBuffer n).run ops).available +
      (((mkRingBuffer n).run ops).capacity -
        ((mkRingBuffer n).run ops).available - 1) = _
    omega
  · rw [h.2]
    show n + 1 - 1 = n
    omega

end NeuroContextOS
